import Mathlib

/-!
# Verification of the tyz-actions branch-synchronization engine

Shallow embedding of the tree-sync planner of
`src/processes/update-sgc-on-parent-push.ts` (`updateSGCOnParentPush`),
the rebase-by-tree-copy operation of `updateReleaseOnStagingPush`, and
the conflict-fallback error handling, together with proofs of the
spec's claims about them.

Conventions: a recursive git tree listing is a `List TreeItem`; JS
`Map` objects (insertion-ordered, last-set value wins) are embedded as
association lists with an upsert operation `mapSet`; JS `Set` objects
are embedded as lists queried by membership.
-/

set_option autoImplicit false

namespace TyzActions

/-- One entry of a recursive git tree listing (`item` in the source):
`path`, `mode`, `sha` and whether `item.type === "blob"`. -/
structure TreeItem where
  path : String
  mode : String
  sha : String
  isBlob : Bool
  deriving Repr, DecidableEq

/-- One element of the `treeUpdates` array: an entry with a sha
(`put`, writes/replaces a file) or an entry with `sha: null`
(`del`, deletes the file). -/
inductive TreeOp where
  | put (path : String) (mode : String) (sha : String)
  | del (path : String)
  deriving Repr, DecidableEq

/-- The path an operation applies to. -/
def TreeOp.path : TreeOp → String
  | .put p _ _ => p
  | .del p => p

/-- Whether the operation is a `put`. -/
def TreeOp.isPut : TreeOp → Bool
  | .put _ _ _ => true
  | .del _ => false

/-- The `parent` argument of `updateSGCOnParentPush`:
`"staging" | "production" | "release"`. -/
inductive Parent where
  | staging
  | production
  | release
  deriving Repr, DecidableEq

/-- JS `Map.prototype.set`: if the key is present, overwrite its value
in place; otherwise append the pair at the end.  (A JS `Map` holds each
key at most once, so overwriting the first occurrence is exact.) -/
def mapSet {α : Type} : List (String × α) → String → α → List (String × α)
  | [], k, v => [(k, v)]
  | e :: rest, k, v => if e.fst = k then (k, v) :: rest else e :: mapSet rest k v

/-- JS `Map.prototype.get` (as an `Option`). -/
def mapGet {α : Type} : List (String × α) → String → Option α
  | [], _ => none
  | e :: rest, k => if e.fst = k then some e.snd else mapGet rest k

/-- JS `String.prototype.startsWith`, expressed on the character
sequence of the strings. -/
def strStartsWith (s pre : String) : Bool :=
  decide (s.data.take pre.data.length = pre.data)

/-- JS `String.prototype.endsWith`, expressed on the character sequence
of the strings. -/
def strEndsWith (s suf : String) : Bool :=
  decide (s.data.drop (s.data.length - suf.data.length) = suf.data)

/-- The eight `shopifyFolders` of the source. -/
def shopifyFolders : List String :=
  ["assets", "blocks", "config", "layout", "locales", "sections", "snippets", "templates"]

/-- `shopifyFolders.some(folder => path.startsWith(folder + '/') || path === folder)`. -/
def isInShopifyFolder (path : String) : Bool :=
  shopifyFolders.any (fun folder => strStartsWith path (folder ++ "/") || path = folder)

/-- `const shouldIncludeJson = includeJsonFiles || parent === "staging" || parent === "release"`. -/
def shouldIncludeJson (includeJsonFiles : Bool) (parent : Parent) : Bool :=
  includeJsonFiles || parent = Parent.staging || parent = Parent.release

/-- The predicate of the `parentTree.data.tree.filter(...)` call producing
`shopifyFiles`: blobs, inside a Shopify folder, and passing the JSON rule
(`shouldIncludeJson || !path.endsWith('.json') || isSettingsSchema`). -/
def passesFilter (inclJson : Bool) (item : TreeItem) : Bool :=
  item.isBlob &&
  isInShopifyFolder item.path &&
  (inclJson || !(strEndsWith item.path ".json") || item.path = "config/settings_schema.json")

/-- `sgcFiles`: the path → sha `Map` built by the `sgcTree.data.tree.forEach`
loop over the target listing (blobs only). -/
def buildSgcFiles (target : List TreeItem) : List (String × String) :=
  target.foldl (fun m it => if it.isBlob then mapSet m it.path it.sha else m) []

/-- `sgcBlobShas`: the `Set` of blob shas of the target listing (queried
only by membership, so embedded as the list of shas). -/
def targetShas (target : List TreeItem) : List String :=
  (target.filter (fun it => it.isBlob)).map (fun it => it.sha)

/-- The skip condition of the main loop: the target already holds the
file's path with the same sha (`sgcFiles.has(path) && get(path) === sha`). -/
def upToDate (sgcFiles : List (String × String)) (f : TreeItem) : Bool :=
  decide (mapGet sgcFiles f.path = some f.sha)

/-- State threaded through the main `for (const shopifyFile of shopifyFiles)`
loop: the `treeUpdates` array and the `blobsToFetch` map (sha → file). -/
structure DiffState where
  treeUpdates : List TreeOp
  blobsToFetch : List (String × TreeItem)
  deriving Repr, DecidableEq

/-- One iteration of the main loop: skip when the target already has the
path with the same sha; push a reuse `put` when the sha already exists in
the target; otherwise record the file in `blobsToFetch` (keyed by sha). -/
def diffStep (sgcFiles : List (String × String)) (shas : List String)
    (st : DiffState) (f : TreeItem) : DiffState :=
  if upToDate sgcFiles f then st
  else if shas.contains f.sha then
    { st with treeUpdates := st.treeUpdates ++ [TreeOp.put f.path f.mode f.sha] }
  else
    { st with blobsToFetch := mapSet st.blobsToFetch f.sha f }

/-- The whole main loop over the filtered source files. -/
def diffPass (sgcFiles : List (String × String)) (shas : List String)
    (files : List TreeItem) : DiffState :=
  files.foldl (diffStep sgcFiles shas) ⟨[], []⟩

/-- The `batchProcess` over `blobsToFetch`: each entry costs one blob read
and one blob write and pushes a `put` for its file.  The blob created in
the target has the same content as the source blob and both live in the
same content-addressed git object database (same `owner`/`repo` in every
request), so `newBlob.data.sha` equals the fetched `blobSha` (the map key). -/
def fetchPuts (blobsToFetch : List (String × TreeItem)) : List TreeOp :=
  blobsToFetch.map (fun e => TreeOp.put e.snd.path e.snd.mode e.fst)

/-- Whether the deletion loop skips a target path for the JSON policy:
`!shouldIncludeJson && isJsonFile && !isSettingsSchema`. -/
def shouldExcludeJson (inclJson : Bool) (path : String) : Bool :=
  !inclJson && strEndsWith path ".json" && !(path = "config/settings_schema.json")

/-- The deletion loop: for each target file inside a Shopify folder, not
excluded by the JSON rule, and absent from the filtered source paths,
push a delete. -/
def deletionPass (inclJson : Bool) (sgcFiles : List (String × String))
    (parentFilePaths : List String) : List TreeOp :=
  (sgcFiles.filter (fun e =>
    isInShopifyFolder e.fst &&
    !(shouldExcludeJson inclJson e.fst) &&
    !(parentFilePaths.contains e.fst))).map (fun e => TreeOp.del e.fst)

/-- One iteration of the cleanup loop: delete a target file outside the
Shopify folders unless some update for that path is already present. -/
def cleanupStep (ups : List TreeOp) (e : String × String) : List TreeOp :=
  if isInShopifyFolder e.fst then ups
  else if ups.any (fun u => u.path = e.fst) then ups
  else ups ++ [TreeOp.del e.fst]

/-- The whole cleanup loop over the target file map. -/
def cleanupFold (sgcFiles : List (String × String)) (ups : List TreeOp) : List TreeOp :=
  sgcFiles.foldl cleanupStep ups

/-- Outcome of one invocation: the final `treeUpdates` (the plan), the
`blobsToFetch` entries (each one blob-read plus one blob-create call),
and whether the tree/commit/ref-update calls were issued. -/
structure SyncResult where
  plan : List TreeOp
  blobCalls : List (String × TreeItem)
  commitCreated : Bool
  deriving Repr, DecidableEq

/-- The body of `updateSGCOnParentPush` after the `shopifyFiles.length
=== 0` early return, as a function of the already-filtered source files:
main diff loop, blob fetch puts, deletion loop, cleanup loop; the
tree/commit/ref-update calls are issued iff `treeUpdates` ended up
non-empty. -/
def syncCore (shopifyFiles target : List TreeItem) (inclJson : Bool) : SyncResult :=
  let sgcFiles := buildSgcFiles target
  let shas := targetShas target
  let parentFilePaths := shopifyFiles.map (fun f => f.path)
  let st := diffPass sgcFiles shas shopifyFiles
  let ups1 := st.treeUpdates ++ fetchPuts st.blobsToFetch
  let ups2 := ups1 ++ deletionPass inclJson sgcFiles parentFilePaths
  let ups3 := cleanupFold sgcFiles ups2
  ⟨ups3, st.blobsToFetch, !ups3.isEmpty⟩

/-- The planning part of `updateSGCOnParentPush`, as a function of the
source (`parent`) listing, the target (`sgc-parent`) listing and the two
policy arguments.  Mirrors the source control flow: filter; early return
when no Shopify files were found (`return` before any comparison); else
the sync core. -/
def updateSGCOnParentPush (source target : List TreeItem)
    (includeJsonFiles : Bool) (parent : Parent) : SyncResult :=
  let inclJson := shouldIncludeJson includeJsonFiles parent
  let shopifyFiles := source.filter (passesFilter inclJson)
  if shopifyFiles.isEmpty then ⟨[], [], false⟩
  else syncCore shopifyFiles target inclJson

/-- Modelled from the spec: the effect of the `create-tree(baseTreeId,
entries)` call of the external object store (the repository's own code
only issues the call): "Build a new tree using the target's current tree
as a base overlaid with the resolved plan's entries (a `Put`
writes/replaces an entry; a `Delete` removes it)." -/
def applyPlan (target : List TreeItem) (plan : List TreeOp) : List TreeItem :=
  plan.foldl (fun t op =>
    match op with
    | .put p m s => (t.filter (fun it => !(it.path = p))) ++ [⟨p, m, s, true⟩]
    | .del p => t.filter (fun it => !(it.path = p))) target

/-- A remote call issued by the rebase-by-tree-copy pipeline after both
refs resolved: a commit creation (recording tree sha and parent list) or
a ref update (branch, force flag). -/
inductive RebaseOp where
  | createCommit (tree : String) (parents : List String)
  | updateRef (branch : String) (force : Bool)
  deriving Repr, DecidableEq

/-- The core of `updateReleaseOnStagingPush` once the `release` branch is
known to exist and both tips were fetched: no-op when the tips are equal,
else one commit with the staging tree and `[stagingSha]` as parents,
followed by a force update of the `release` ref to it. -/
def updateReleaseOnStagingPush (stagingSha releaseSha stagingTree : String) : List RebaseOp :=
  if releaseSha = stagingSha then []
  else [RebaseOp.createCommit stagingTree [stagingSha], RebaseOp.updateRef "release" true]

/-- The error caught by the outer `catch` of `updateSGCOnParentPush`:
its HTTP `status` and whether its message contains `'conflict'`. -/
structure SyncError where
  status : Nat
  messageHasConflict : Bool
  deriving Repr, DecidableEq

/-- `error.status === 422 || error.message.includes('conflict')`. -/
def isConflictError (e : SyncError) : Bool :=
  e.status = 422 || e.messageHasConflict

/-- Outcome of the `catch` block: how many fallback merge calls were
issued and whether the function re-threw an error to its caller. -/
structure CatchOutcome where
  mergeCalls : Nat
  rethrown : Bool
  deriving Repr, DecidableEq

/-- The `catch` block of `updateSGCOnParentPush`: on a conflict error it
issues exactly one fallback merge; a failure of that merge is only
logged (the inner `catch` swallows `mergeError`); in every case the
function returns normally. `mergeSucceeds` is whether the single merge
request succeeds. -/
def catchBlock (e : SyncError) (_mergeSucceeds : Bool) : CatchOutcome :=
  if isConflictError e then
    { mergeCalls := 1, rethrown := false }
  else
    { mergeCalls := 0, rethrown := false }

/-- A fold of `mapSet` insertions over a list of items, with a key and a
value extractor.  `buildSgcFiles` and the `blobsToFetch` accumulation are
both instances of this shape. -/
def upsertFold {α β : Type} (key : β → String) (val : β → α)
    (cs : List β) (m : List (String × α)) : List (String × α) :=
  cs.foldl (fun m c => mapSet m (key c) (val c)) m

/-- The (first, hence under unique paths the only) blob of a listing at a
given path. -/
def blobAt (t : List TreeItem) (p : String) : Option TreeItem :=
  t.find? (fun it => it.isBlob && it.path = p)

/-- The main-loop condition selecting the reuse-`put` branch. -/
def reuseCond (sgcFiles : List (String × String)) (shas : List String) (f : TreeItem) : Bool :=
  !upToDate sgcFiles f && shas.contains f.sha

/-- The main-loop condition selecting the `blobsToFetch` branch. -/
def fetchCond (sgcFiles : List (String × String)) (shas : List String) (f : TreeItem) : Bool :=
  !upToDate sgcFiles f && !(shas.contains f.sha)

/-- The `put`s pushed inline by the main loop (blob reuse). -/
def reusePuts (sgcFiles : List (String × String)) (shas : List String)
    (files : List TreeItem) : List TreeOp :=
  (files.filter (reuseCond sgcFiles shas)).map (fun f => TreeOp.put f.path f.mode f.sha)

/-- The final contents of the `blobsToFetch` map. -/
def fetchMap (sgcFiles : List (String × String)) (shas : List String)
    (files : List TreeItem) : List (String × TreeItem) :=
  upsertFold (fun f => f.sha) (fun f => f) (files.filter (fetchCond sgcFiles shas)) []

/-- The fetch candidates of a sync: filtered source files that are stale
and whose sha is absent from the target's blobs (exactly those recorded
in `blobsToFetch`). -/
def fetchCands (s t : List TreeItem) (inclJson : Bool) : List TreeItem :=
  (s.filter (passesFilter inclJson)).filter
    (fetchCond (buildSgcFiles t) (targetShas t))

theorem mapGet_mapSet {α : Type} (m : List (String × α)) (k : String) (v : α) (k' : String) :
    mapGet (mapSet m k v) k' = if k' = k then some v else mapGet m k' := by
  induction m with
  | nil =>
      by_cases h : k' = k
      · subst h; simp [mapSet, mapGet]
      · have hne : ¬(k = k') := fun hh => h hh.symm
        simp [mapSet, mapGet, h, hne]
  | cons e rest ih =>
      by_cases he : e.fst = k
      · by_cases h : k' = k
        · subst h; simp [mapSet, mapGet, he]
        · have hne : ¬(k = k') := fun hh => h hh.symm
          have hne2 : ¬(e.fst = k') := fun hh => h (he.symm.trans hh).symm
          simp [mapSet, mapGet, he, h, hne, hne2]
      · by_cases h : k' = k
        · subst h; simp [mapSet, mapGet, he, ih]
        · simp [mapSet, mapGet, he, h, ih]

theorem mem_mapSet {α : Type} (m : List (String × α)) (k : String) (v : α) (e : String × α)
    (h : e ∈ mapSet m k v) : e ∈ m ∨ e = (k, v) := by
  induction m with
  | nil => simp [mapSet] at h; simp [h]
  | cons e' rest ih =>
      by_cases he : e'.fst = k
      · simp [mapSet, he] at h
        rcases h with h | h
        · right; simp [h]
        · left; simp [h]
      · simp [mapSet, he] at h
        rcases h with h | h
        · left; simp [h]
        · rcases ih h with h' | h'
          · left; simp [h']
          · right; exact h'

theorem mem_upsertFold {α β : Type} (key : β → String) (val : β → α)
    (cs : List β) (m : List (String × α)) (e : String × α)
    (h : e ∈ upsertFold key val cs m) : e ∈ m ∨ ∃ c ∈ cs, e = (key c, val c) := by
  induction cs generalizing m with
  | nil => exact Or.inl h
  | cons c rest ih =>
      rcases ih (mapSet m (key c) (val c)) h with h' | h'
      · rcases mem_mapSet _ _ _ _ h' with h'' | h''
        · exact Or.inl h''
        · exact Or.inr ⟨c, by simp, h''⟩
      · rcases h' with ⟨c', hc', he⟩
        exact Or.inr ⟨c', by simp [hc'], he⟩

theorem mapGet_upsertFold_untouched {α β : Type} (key : β → String) (val : β → α)
    (cs : List β) (m : List (String × α)) (X : String)
    (h : ∀ c ∈ cs, key c ≠ X) :
    mapGet (upsertFold key val cs m) X = mapGet m X := by
  induction cs generalizing m with
  | nil => rfl
  | cons c rest ih =>
      have h1 : mapGet (upsertFold key val rest (mapSet m (key c) (val c))) X
          = mapGet (mapSet m (key c) (val c)) X :=
        ih _ (fun c' hc' => h c' (by simp [hc']))
      have h2 : mapGet (mapSet m (key c) (val c)) X = mapGet m X := by
        have hne : ¬(X = key c) := fun hh => h c (by simp) hh.symm
        rw [mapGet_mapSet, if_neg hne]
      exact h1.trans h2

theorem mapGet_upsertFold_last {α β : Type} (key : β → String) (val : β → α)
    (l₁ l₂ : List β) (c : β) (m : List (String × α))
    (h : ∀ c' ∈ l₂, key c' ≠ key c) :
    mapGet (upsertFold key val (l₁ ++ c :: l₂) m) (key c) = some (val c) := by
  have : upsertFold key val (l₁ ++ c :: l₂) m
      = upsertFold key val l₂ (mapSet (upsertFold key val l₁ m) (key c) (val c)) := by
    simp [upsertFold, List.foldl_append]
  rw [this, mapGet_upsertFold_untouched _ _ _ _ _ h, mapGet_mapSet]
  simp

/-- Split off the last occurrence of a member. -/
theorem exists_last_occ {β : Type} (cs : List β) (c : β) (h : c ∈ cs) :
    ∃ l₁ l₂, cs = l₁ ++ c :: l₂ ∧ c ∉ l₂ := by
  induction cs with
  | nil => simp at h
  | cons x rest ih =>
      by_cases hr : c ∈ rest
      · rcases ih hr with ⟨l₁, l₂, heq, hn⟩
        exact ⟨x :: l₁, l₂, by simp [heq], hn⟩
      · have hx : x = c := by
          rcases List.mem_cons.mp h with h' | h'
          · exact h'.symm
          · exact absurd h' hr
        exact ⟨[], rest, by simp [hx], hr⟩

theorem mapGet_upsertFold_unique {α β : Type} (key : β → String) (val : β → α)
    (cs : List β) (m : List (String × α)) (c : β)
    (hc : c ∈ cs) (huniq : ∀ c' ∈ cs, key c' = key c → c' = c) :
    mapGet (upsertFold key val cs m) (key c) = some (val c) := by
  rcases exists_last_occ cs c hc with ⟨l₁, l₂, heq, hn⟩
  subst heq
  refine mapGet_upsertFold_last _ _ _ _ _ _ (fun c' hc' hk => ?_)
  have : c' = c := huniq c' (by simp [hc']) hk
  exact hn (this ▸ hc')

theorem mapGet_eq_none_iff {α : Type} (m : List (String × α)) (k : String) :
    mapGet m k = none ↔ k ∉ m.map Prod.fst := by
  induction m with
  | nil => simp [mapGet]
  | cons e rest ih =>
      by_cases he : e.fst = k
      · simp [mapGet, he]
      · have hne : ¬(k = e.fst) := fun hh => he hh.symm
        simp [mapGet, he, ih, hne]

theorem mapGet_eq_some_mem {α : Type} (m : List (String × α)) (k : String) (v : α)
    (h : mapGet m k = some v) : (k, v) ∈ m := by
  induction m with
  | nil => simp [mapGet] at h
  | cons e rest ih =>
      by_cases he : e.fst = k
      · simp [mapGet, he] at h
        have : e = (k, v) := Prod.ext he h
        exact this ▸ List.mem_cons_self e rest
      · simp [mapGet, he] at h
        exact List.mem_cons.mpr (Or.inr (ih h))

theorem mapGet_of_mem_nodupKeys {α : Type} (m : List (String × α)) (k : String) (v : α)
    (hnd : (m.map Prod.fst).Nodup) (h : (k, v) ∈ m) : mapGet m k = some v := by
  induction m with
  | nil => simp at h
  | cons e rest ih =>
      rcases List.mem_cons.mp h with h' | h'
      · simp [mapGet, ← h']
      · have hk : k ∈ rest.map Prod.fst := List.mem_map.mpr ⟨(k, v), h', rfl⟩
        have he : ¬(e.fst = k) := by
          intro hh
          exact (List.nodup_cons.mp (by simpa using hnd)).1 (hh ▸ hk)
        simp [mapGet, he]
        exact ih (List.nodup_cons.mp (by simpa using hnd)).2 h'

theorem keys_mapSet_subset {α : Type} (m : List (String × α)) (k : String) (v : α) (x : String)
    (h : x ∈ (mapSet m k v).map Prod.fst) : x ∈ m.map Prod.fst ∨ x = k := by
  rcases List.mem_map.mp h with ⟨e, he, hx⟩
  rcases mem_mapSet _ _ _ _ he with h' | h'
  · exact Or.inl (hx ▸ List.mem_map.mpr ⟨e, h', rfl⟩)
  · right; rw [← hx, h']

theorem nodupKeys_mapSet {α : Type} (m : List (String × α)) (k : String) (v : α)
    (h : (m.map Prod.fst).Nodup) : ((mapSet m k v).map Prod.fst).Nodup := by
  induction m with
  | nil => simp [mapSet]
  | cons e rest ih =>
      by_cases he : e.fst = k
      · have hkeys : (mapSet (e :: rest) k v).map Prod.fst = k :: rest.map Prod.fst := by
          simp [mapSet, he]
        rw [hkeys, ← he]
        simpa using h
      · have h1 : e.fst ∉ rest.map Prod.fst := (List.nodup_cons.mp (by simpa using h)).1
        have h2 : (rest.map Prod.fst).Nodup := (List.nodup_cons.mp (by simpa using h)).2
        have h3 : e.fst ∉ (mapSet rest k v).map Prod.fst := by
          intro hx
          rcases keys_mapSet_subset _ _ _ _ hx with h' | h'
          · exact h1 h'
          · exact he h'
        simpa [mapSet, he] using List.nodup_cons.mpr ⟨h3, ih h2⟩

theorem nodupKeys_upsertFold {α β : Type} (key : β → String) (val : β → α)
    (cs : List β) (m : List (String × α)) (h : (m.map Prod.fst).Nodup) :
    ((upsertFold key val cs m).map Prod.fst).Nodup := by
  induction cs generalizing m with
  | nil => exact h
  | cons c rest ih => exact ih _ (nodupKeys_mapSet _ _ _ h)

theorem mapSet_eq_append {α : Type} (m : List (String × α)) (k : String) (v : α)
    (h : mapGet m k = none) : mapSet m k v = m ++ [(k, v)] := by
  induction m with
  | nil => rfl
  | cons e rest ih =>
      have he : ¬(e.fst = k) := by
        intro hh
        simp [mapGet, hh] at h
      simp [mapGet, he] at h
      simp [mapSet, he, ih h]

theorem upsertFold_eq_append {α β : Type} (key : β → String) (val : β → α)
    (cs : List β) (m : List (String × α))
    (hnd : (cs.map key).Nodup) (hnew : ∀ c ∈ cs, mapGet m (key c) = none) :
    upsertFold key val cs m = m ++ cs.map (fun c => (key c, val c)) := by
  induction cs generalizing m with
  | nil => simp [upsertFold]
  | cons c rest ih =>
      have hstep : mapSet m (key c) (val c) = m ++ [(key c, val c)] :=
        mapSet_eq_append _ _ _ (hnew c (by simp))
      have hnd' : (rest.map key).Nodup := (List.nodup_cons.mp (by simpa using hnd)).2
      have hkc : key c ∉ rest.map key := (List.nodup_cons.mp (by simpa using hnd)).1
      have hnew' : ∀ c' ∈ rest, mapGet (m ++ [(key c, val c)]) (key c') = none := by
        intro c' hc'
        rw [mapGet_eq_none_iff]
        intro hx
        simp only [List.map_append, List.mem_append] at hx
        rcases hx with hx | hx
        · exact (mapGet_eq_none_iff m (key c')).mp (hnew c' (by simp [hc'])) hx
        · simp at hx
          exact hkc (hx ▸ List.mem_map.mpr ⟨c', hc', rfl⟩)
      calc upsertFold key val (c :: rest) m
          = upsertFold key val rest (mapSet m (key c) (val c)) := rfl
        _ = upsertFold key val rest (m ++ [(key c, val c)]) := by rw [hstep]
        _ = (m ++ [(key c, val c)]) ++ rest.map (fun c => (key c, val c)) := ih _ hnd' hnew'
        _ = m ++ (c :: rest).map (fun c => (key c, val c)) := by simp

theorem foldl_filter_cond {α β : Type} (p : β → Bool) (f : α → β → α) (l : List β) (init : α) :
    l.foldl (fun acc x => if p x then f acc x else acc) init = (l.filter p).foldl f init := by
  induction l generalizing init with
  | nil => rfl
  | cons x rest ih => by_cases hp : p x <;> simp [hp, ih]

theorem buildSgcFiles_eq_upsert (t : List TreeItem) :
    buildSgcFiles t
      = upsertFold (fun it => it.path) (fun it => it.sha) (t.filter (fun it => it.isBlob)) [] := by
  simp [buildSgcFiles, upsertFold, foldl_filter_cond]

theorem buildSgcFiles_nodupKeys (t : List TreeItem) :
    ((buildSgcFiles t).map Prod.fst).Nodup := by
  rw [buildSgcFiles_eq_upsert]
  exact nodupKeys_upsertFold _ _ _ _ (by simp)

theorem buildSgcFiles_eq_of_nodup (t : List TreeItem)
    (h : (t.map (fun it => it.path)).Nodup) :
    buildSgcFiles t = (t.filter (fun it => it.isBlob)).map (fun it => (it.path, it.sha)) := by
  rw [buildSgcFiles_eq_upsert]
  have hnd : ((t.filter (fun it => it.isBlob)).map (fun it => it.path)).Nodup :=
    h.sublist ((List.filter_sublist t).map _)
  simpa using upsertFold_eq_append _ _ _ [] hnd (by simp [mapGet])



theorem mapGet_assoc_filter (q : TreeItem → Bool) (t : List TreeItem) (p : String) :
    mapGet ((t.filter q).map (fun it => (it.path, it.sha))) p
      = (t.find? (fun it => q it && it.path = p)).map (fun it => it.sha) := by
  induction t with
  | nil => rfl
  | cons it rest ih =>
      by_cases hq : q it
      · by_cases hp : it.path = p
        · simp [hq, hp, mapGet, List.find?]
        · simp [hq, hp, mapGet, List.find?, ih]
      · simp [hq, List.find?, ih]

theorem mapGet_buildSgcFiles (t : List TreeItem) (p : String)
    (h : (t.map (fun it => it.path)).Nodup) :
    mapGet (buildSgcFiles t) p = (blobAt t p).map (fun it => it.sha) := by
  rw [buildSgcFiles_eq_of_nodup t h, mapGet_assoc_filter]
  rfl



theorem diffFold_eq (sgcFiles : List (String × String)) (shas : List String)
    (files : List TreeItem) (u : List TreeOp) (b : List (String × TreeItem)) :
    files.foldl (diffStep sgcFiles shas) ⟨u, b⟩ =
      ⟨u ++ (files.filter (reuseCond sgcFiles shas)).map (fun f => TreeOp.put f.path f.mode f.sha),
       upsertFold (fun f => f.sha) (fun f => f) (files.filter (fetchCond sgcFiles shas)) b⟩ := by
  induction files generalizing u b with
  | nil => simp [upsertFold]
  | cons f fs ih =>
      by_cases h1 : upToDate sgcFiles f
      · have : diffStep sgcFiles shas ⟨u, b⟩ f = ⟨u, b⟩ := by simp [diffStep, h1]
        simp only [List.foldl_cons, this, ih]
        simp [reuseCond, fetchCond, h1]
      · by_cases h2 : shas.contains f.sha
        · have h2' : f.sha ∈ shas := by simpa using h2
          have : diffStep sgcFiles shas ⟨u, b⟩ f
              = ⟨u ++ [TreeOp.put f.path f.mode f.sha], b⟩ := by simp [diffStep, h1, h2, h2']
          simp only [List.foldl_cons, this, ih]
          simp [reuseCond, fetchCond, h1, h2, h2']
        · have h2' : f.sha ∉ shas := by simpa using h2
          have : diffStep sgcFiles shas ⟨u, b⟩ f = ⟨u, mapSet b f.sha f⟩ := by
            simp [diffStep, h1, h2, h2']
          simp only [List.foldl_cons, this, ih]
          simp [reuseCond, fetchCond, h1, h2, h2', upsertFold]

theorem diffPass_eq (sgcFiles : List (String × String)) (shas : List String)
    (files : List TreeItem) :
    diffPass sgcFiles shas files
      = ⟨reusePuts sgcFiles shas files, fetchMap sgcFiles shas files⟩ := by
  simpa [diffPass, reusePuts, fetchMap] using diffFold_eq sgcFiles shas files [] []

theorem syncCore_eq (shopifyFiles target : List TreeItem) (inclJson : Bool) :
    syncCore shopifyFiles target inclJson =
      ⟨cleanupFold (buildSgcFiles target)
          (reusePuts (buildSgcFiles target) (targetShas target) shopifyFiles
            ++ fetchPuts (fetchMap (buildSgcFiles target) (targetShas target) shopifyFiles)
            ++ deletionPass inclJson (buildSgcFiles target) (shopifyFiles.map (fun f => f.path))),
       fetchMap (buildSgcFiles target) (targetShas target) shopifyFiles,
       !(cleanupFold (buildSgcFiles target)
          (reusePuts (buildSgcFiles target) (targetShas target) shopifyFiles
            ++ fetchPuts (fetchMap (buildSgcFiles target) (targetShas target) shopifyFiles)
            ++ deletionPass inclJson (buildSgcFiles target)
                (shopifyFiles.map (fun f => f.path)))).isEmpty⟩ := by
  simp [syncCore, diffPass_eq, List.append_assoc]

theorem reuseCond_iff (sgcFiles : List (String × String)) (shas : List String) (f : TreeItem) :
    reuseCond sgcFiles shas f = true ↔ upToDate sgcFiles f = false ∧ f.sha ∈ shas := by
  simp [reuseCond]

theorem fetchCond_iff (sgcFiles : List (String × String)) (shas : List String) (f : TreeItem) :
    fetchCond sgcFiles shas f = true ↔ upToDate sgcFiles f = false ∧ f.sha ∉ shas := by
  simp [fetchCond]

theorem cleanupFold_append (sgcFiles : List (String × String)) (ups : List TreeOp) :
    ∃ ds, cleanupFold sgcFiles ups = ups ++ ds ∧
      ∀ op ∈ ds, ∃ e ∈ sgcFiles, op = TreeOp.del e.fst ∧ isInShopifyFolder e.fst = false := by
  induction sgcFiles generalizing ups with
  | nil => exact ⟨[], by simp [cleanupFold], by simp⟩
  | cons e rest ih =>
      have hstep : cleanupFold (e :: rest) ups = cleanupFold rest (cleanupStep ups e) := by
        simp only [cleanupFold, List.foldl_cons]
      by_cases h1 : isInShopifyFolder e.fst
      · rcases ih (cleanupStep ups e) with ⟨ds, heq, hprop⟩
        refine ⟨ds, ?_, fun op hop => ?_⟩
        · rw [hstep, heq]; simp [cleanupStep, h1]
        · rcases hprop op hop with ⟨e', he', h'⟩
          exact ⟨e', by simp [he'], h'⟩
      · by_cases h2 : ups.any (fun u => u.path = e.fst)
        · rcases ih (cleanupStep ups e) with ⟨ds, heq, hprop⟩
          refine ⟨ds, ?_, fun op hop => ?_⟩
          · rw [hstep, heq]; simp [cleanupStep, h1, h2]
          · rcases hprop op hop with ⟨e', he', h'⟩
            exact ⟨e', by simp [he'], h'⟩
        · rcases ih (cleanupStep ups e) with ⟨ds, heq, hprop⟩
          refine ⟨TreeOp.del e.fst :: ds, ?_, fun op hop => ?_⟩
          · rw [hstep, heq]
            simp [cleanupStep, h1, h2]
          · rcases List.mem_cons.mp hop with h' | h'
            · exact ⟨e, by simp, by simp [h'], by simpa using h1⟩
            · rcases hprop op h' with ⟨e', he', hh⟩
              exact ⟨e', by simp [he'], hh⟩

theorem mem_cleanupFold (sgcFiles : List (String × String)) (ups : List TreeOp) (op : TreeOp)
    (h : op ∈ ups) : op ∈ cleanupFold sgcFiles ups := by
  rcases cleanupFold_append sgcFiles ups with ⟨ds, heq, _⟩
  rw [heq]
  exact List.mem_append.mpr (Or.inl h)

theorem cleanupFold_covers (sgcFiles : List (String × String)) (ups : List TreeOp)
    (e : String × String) (he : e ∈ sgcFiles) (hout : isInShopifyFolder e.fst = false) :
    ∃ op ∈ cleanupFold sgcFiles ups, op.path = e.fst := by
  induction sgcFiles generalizing ups with
  | nil => simp at he
  | cons e' rest ih =>
      have hstep : cleanupFold (e' :: rest) ups = cleanupFold rest (cleanupStep ups e') := by
        simp only [cleanupFold, List.foldl_cons]
      rcases List.mem_cons.mp he with h' | h'
      · subst h'
        rw [hstep]
        by_cases h2 : ups.any (fun u => u.path = e.fst)
        · rcases List.any_eq_true.mp h2 with ⟨u, hu, hup⟩
          exact ⟨u, mem_cleanupFold _ _ _ (by simpa [cleanupStep, hout, h2] using hu),
            by simpa using hup⟩
        · refine ⟨TreeOp.del e.fst, mem_cleanupFold _ _ _ ?_, rfl⟩
          simp [cleanupStep, hout, h2]
      · rw [hstep]
        exact ih (cleanupStep ups e') h'

theorem cleanupStep_nodupPaths (ups : List TreeOp) (e : String × String)
    (h : (ups.map TreeOp.path).Nodup) : ((cleanupStep ups e).map TreeOp.path).Nodup := by
  unfold cleanupStep
  split_ifs with h1 h2
  · exact h
  · exact h
  · have hnot : e.fst ∉ ups.map TreeOp.path := by
      intro hx
      rcases List.mem_map.mp hx with ⟨u, hu, hup⟩
      exact h2 (List.any_eq_true.mpr ⟨u, hu, by simp [hup]⟩)
    simp [List.nodup_append, TreeOp.path, h, hnot]

theorem cleanupFold_nodupPaths (sgcFiles : List (String × String)) (ups : List TreeOp)
    (h : (ups.map TreeOp.path).Nodup) : ((cleanupFold sgcFiles ups).map TreeOp.path).Nodup := by
  induction sgcFiles generalizing ups with
  | nil => exact h
  | cons e rest ih =>
      have hstep : cleanupFold (e :: rest) ups = cleanupFold rest (cleanupStep ups e) := by
        simp only [cleanupFold, List.foldl_cons]
      rw [hstep]
      exact ih _ (cleanupStep_nodupPaths ups e h)

theorem cleanupFold_id (sgcFiles : List (String × String)) (ups : List TreeOp)
    (h : ∀ e ∈ sgcFiles, isInShopifyFolder e.fst = true) : cleanupFold sgcFiles ups = ups := by
  induction sgcFiles with
  | nil => rfl
  | cons e rest ih =>
      have hstep : cleanupFold (e :: rest) ups = cleanupFold rest (cleanupStep ups e) := by
        simp only [cleanupFold, List.foldl_cons]
      rw [hstep]
      have : cleanupStep ups e = ups := by simp [cleanupStep, h e (by simp)]
      rw [this]
      exact ih (fun e' he' => h e' (by simp [he']))

theorem mem_deletionPass_iff (inclJson : Bool) (sgcFiles : List (String × String))
    (parentFilePaths : List String) (op : TreeOp) :
    op ∈ deletionPass inclJson sgcFiles parentFilePaths ↔
      ∃ e ∈ sgcFiles, op = TreeOp.del e.fst ∧ isInShopifyFolder e.fst = true ∧
        shouldExcludeJson inclJson e.fst = false ∧ e.fst ∉ parentFilePaths := by
  simp only [deletionPass, List.mem_map, List.mem_filter]
  constructor
  · rintro ⟨e, ⟨he, hcond⟩, hop⟩
    simp only [Bool.and_eq_true, Bool.not_eq_true', List.elem_iff, decide_eq_false_iff_not]
      at hcond
    exact ⟨e, he, hop.symm, hcond.1.1, hcond.1.2, by simpa using hcond.2⟩
  · rintro ⟨e, he, hop, h1, h2, h3⟩
    refine ⟨e, ⟨he, ?_⟩, hop.symm⟩
    simp [h1, h2, h3]

theorem mem_fetchPuts_iff (bm : List (String × TreeItem)) (op : TreeOp) :
    op ∈ fetchPuts bm ↔ ∃ e ∈ bm, op = TreeOp.put e.snd.path e.snd.mode e.fst := by
  simp only [fetchPuts, List.mem_map]
  constructor
  · rintro ⟨e, he, hop⟩; exact ⟨e, he, hop.symm⟩
  · rintro ⟨e, he, hop⟩; exact ⟨e, he, hop.symm⟩

theorem fetchMap_mem (sgcFiles : List (String × String)) (shas : List String)
    (files : List TreeItem) (e : String × TreeItem) (h : e ∈ fetchMap sgcFiles shas files) :
    ∃ c ∈ files.filter (fetchCond sgcFiles shas), e = (c.sha, c) := by
  rcases mem_upsertFold _ _ _ _ _ h with h' | h'
  · simp at h'
  · rcases h' with ⟨c, hc, he⟩
    exact ⟨c, hc, he⟩

theorem fetchMap_nodupKeys (sgcFiles : List (String × String)) (shas : List String)
    (files : List TreeItem) : ((fetchMap sgcFiles shas files).map Prod.fst).Nodup :=
  nodupKeys_upsertFold _ _ _ _ (by simp)

/-- Every `put` of a produced plan stems from a filtered source file that
was not already current in the target, and carries exactly that file's
path, mode and sha. -/
theorem syncCore_put_sound (F target : List TreeItem) (inclJson : Bool) (p m sh : String)
    (h : TreeOp.put p m sh ∈ (syncCore F target inclJson).plan) :
    ∃ f ∈ F, f.path = p ∧ f.mode = m ∧ f.sha = sh ∧
      upToDate (buildSgcFiles target) f = false ∧
      (f.sha ∈ targetShas target ∨
        (f.sha, f) ∈ fetchMap (buildSgcFiles target) (targetShas target) F) := by
  rw [syncCore_eq] at h
  simp only at h
  rcases cleanupFold_append (buildSgcFiles target)
      (reusePuts (buildSgcFiles target) (targetShas target) F
        ++ fetchPuts (fetchMap (buildSgcFiles target) (targetShas target) F)
        ++ deletionPass inclJson (buildSgcFiles target) (F.map (fun f => f.path)))
      with ⟨ds, heq, hds⟩
  rw [heq] at h
  rcases List.mem_append.mp h with h' | h'
  · rcases List.mem_append.mp h' with h'' | h''
    · rcases List.mem_append.mp h'' with h3 | h3
      · rcases List.mem_map.mp h3 with ⟨f, hf, hop⟩
        have hc := (reuseCond_iff _ _ f).mp (List.mem_filter.mp hf).2
        injection hop with e1 e2 e3
        exact ⟨f, (List.mem_filter.mp hf).1, e1, e2, e3, hc.1, Or.inl hc.2⟩
      · rcases (mem_fetchPuts_iff _ _).mp h3 with ⟨e, he, hop⟩
        rcases fetchMap_mem _ _ _ _ he with ⟨c, hc, hec⟩
        have hcond := (fetchCond_iff _ _ c).mp (List.mem_filter.mp hc).2
        subst hec
        injection hop with e1 e2 e3
        exact ⟨c, (List.mem_filter.mp hc).1, e1.symm, e2.symm, e3.symm, hcond.1, Or.inr he⟩
    · rcases (mem_deletionPass_iff _ _ _ _).mp h'' with ⟨e, _, hop, _⟩
      simp at hop
  · rcases hds _ h' with ⟨e, _, hop, _⟩
    simp at hop

/-- Every `delete` of a produced plan targets an existing target file
whose path is absent from the filtered source, and an in-scope delete is
never for a path the JSON policy excludes.  `hF` states that the filtered
source files all lie inside Shopify folders (true of any filter output). -/
theorem syncCore_del_sound (F target : List TreeItem) (inclJson : Bool) (p : String)
    (hF : ∀ f ∈ F, isInShopifyFolder f.path = true)
    (h : TreeOp.del p ∈ (syncCore F target inclJson).plan) :
    (∃ sh, (p, sh) ∈ buildSgcFiles target) ∧ p ∉ F.map (fun f => f.path) ∧
      (isInShopifyFolder p = true → shouldExcludeJson inclJson p = false) := by
  rw [syncCore_eq] at h
  simp only at h
  rcases cleanupFold_append (buildSgcFiles target)
      (reusePuts (buildSgcFiles target) (targetShas target) F
        ++ fetchPuts (fetchMap (buildSgcFiles target) (targetShas target) F)
        ++ deletionPass inclJson (buildSgcFiles target) (F.map (fun f => f.path)))
      with ⟨ds, heq, hds⟩
  rw [heq] at h
  rcases List.mem_append.mp h with h' | h'
  · rcases List.mem_append.mp h' with h'' | h''
    · rcases List.mem_append.mp h'' with h3 | h3
      · rcases List.mem_map.mp h3 with ⟨f, _, hop⟩
        simp at hop
      · rcases (mem_fetchPuts_iff _ _).mp h3 with ⟨e, _, hop⟩
        simp at hop
    · rcases (mem_deletionPass_iff _ _ _ _).mp h'' with ⟨e, he, hop, hin, hexcl, hnp⟩
      injection hop with e1
      subst e1
      exact ⟨⟨e.snd, by simpa using he⟩, by simpa using hnp, fun _ => hexcl⟩
  · rcases hds _ h' with ⟨e, he, hop, hout⟩
    injection hop with e1
    subst e1
    refine ⟨⟨e.snd, by simpa using he⟩, ?_, fun hin => by rw [hin] at hout; cases hout⟩
    intro hp
    rcases List.mem_map.mp hp with ⟨f, hf, hfp⟩
    rw [← hfp] at hout
    rw [hF f hf] at hout
    cases hout

/-- An in-scope target file that passes the JSON rule and is absent from
the filtered source paths is deleted by the plan. -/
theorem syncCore_del_complete (F target : List TreeItem) (inclJson : Bool) (p sh : String)
    (hmem : (p, sh) ∈ buildSgcFiles target)
    (hin : isInShopifyFolder p = true)
    (hexcl : shouldExcludeJson inclJson p = false)
    (hnp : p ∉ F.map (fun f => f.path)) :
    TreeOp.del p ∈ (syncCore F target inclJson).plan := by
  rw [syncCore_eq]
  simp only
  apply mem_cleanupFold
  refine List.mem_append.mpr (Or.inr ?_)
  exact (mem_deletionPass_iff _ _ _ _).mpr ⟨(p, sh), hmem, rfl, hin, hexcl, hnp⟩

/-- An out-of-scope target file is deleted by the cleanup pass. -/
theorem syncCore_cleanup_del (F target : List TreeItem) (inclJson : Bool) (p sh : String)
    (hF : ∀ f ∈ F, isInShopifyFolder f.path = true)
    (hmem : (p, sh) ∈ buildSgcFiles target)
    (hout : isInShopifyFolder p = false) :
    TreeOp.del p ∈ (syncCore F target inclJson).plan := by
  have hcov : ∃ op ∈ (syncCore F target inclJson).plan, op.path = p := by
    rw [syncCore_eq]
    simp only
    exact cleanupFold_covers _ _ (p, sh) hmem hout
  rcases hcov with ⟨op, hop, hpath⟩
  cases op with
  | put q m sh' =>
      rcases syncCore_put_sound F target inclJson q m sh' hop with ⟨f, hf, hfp, _⟩
      have hq : q = p := by simpa [TreeOp.path] using hpath
      have : isInShopifyFolder p = true := by
        rw [← hq, ← hfp]
        exact hF f hf
      rw [this] at hout
      cases hout
  | del q =>
      have : q = p := by simpa [TreeOp.path] using hpath
      exact this ▸ hop

/-- A filtered source file that is not current in the target receives a
`put` carrying its own path, mode and sha — provided that, when its blob
is absent from the target, it is the only stale fetch candidate with its
sha (otherwise the sha-keyed `blobsToFetch` map may drop it). -/
theorem syncCore_put_complete (F target : List TreeItem) (inclJson : Bool) (f : TreeItem)
    (hf : f ∈ F) (hstale : upToDate (buildSgcFiles target) f = false)
    (hu : ∀ g ∈ F, upToDate (buildSgcFiles target) g = false →
      g.sha ∉ targetShas target → g.sha = f.sha → g = f) :
    TreeOp.put f.path f.mode f.sha ∈ (syncCore F target inclJson).plan := by
  rw [syncCore_eq]
  simp only
  apply mem_cleanupFold
  by_cases hc : f.sha ∈ targetShas target
  · refine List.mem_append.mpr (Or.inl (List.mem_append.mpr (Or.inl ?_)))
    exact List.mem_map.mpr ⟨f, List.mem_filter.mpr ⟨hf, (reuseCond_iff _ _ f).mpr ⟨hstale, hc⟩⟩, rfl⟩
  · refine List.mem_append.mpr (Or.inl (List.mem_append.mpr (Or.inr ?_)))
    have hmem : f ∈ F.filter (fetchCond (buildSgcFiles target) (targetShas target)) :=
      List.mem_filter.mpr ⟨hf, (fetchCond_iff _ _ f).mpr ⟨hstale, hc⟩⟩
    have hget : mapGet (fetchMap (buildSgcFiles target) (targetShas target) F) f.sha = some f := by
      apply mapGet_upsertFold_unique (fun g => g.sha) (fun g => g) _ [] f hmem
      intro c' hc' hsha
      have h1 := List.mem_filter.mp hc'
      have h2 := (fetchCond_iff _ _ c').mp h1.2
      exact hu c' h1.1 h2.1 (by rw [hsha]; exact hc) hsha
    have : (f.sha, f) ∈ fetchMap (buildSgcFiles target) (targetShas target) F :=
      mapGet_eq_some_mem _ _ _ hget
    exact (mem_fetchPuts_iff _ _).mpr ⟨(f.sha, f), this, rfl⟩

/-- No operation of the plan touches a path whose filtered-source file is
already current in the target. -/
theorem syncCore_no_op_at (F target : List TreeItem) (inclJson : Bool) (p : String)
    (hF : ∀ f ∈ F, isInShopifyFolder f.path = true)
    (hcur : ∀ f ∈ F, f.path = p → upToDate (buildSgcFiles target) f = true)
    (hinP : p ∈ F.map (fun f => f.path)) :
    ∀ op ∈ (syncCore F target inclJson).plan, TreeOp.path op ≠ p := by
  intro op hop hpath
  cases op with
  | put q m sh =>
      rcases syncCore_put_sound F target inclJson q m sh hop with ⟨f, hf, hfp, _, _, hstale, _⟩
      have : f.path = p := by rw [hfp]; simpa [TreeOp.path] using hpath
      rw [hcur f hf this] at hstale
      cases hstale
  | del q =>
      rcases syncCore_del_sound F target inclJson q hF hop with ⟨_, hnp, _⟩
      have : q = p := by simpa [TreeOp.path] using hpath
      exact hnp (this ▸ hinP)

/-- Decompose a list around the last element satisfying a predicate. -/
theorem filter_getLast_decomp {β : Type} (q : β → Bool) (cs : List β) (c : β)
    (h : (cs.filter q).getLast? = some c) :
    ∃ l₁ l₂, cs = l₁ ++ c :: l₂ ∧ (∀ x ∈ l₂, q x = false) ∧ q c = true := by
  induction cs with
  | nil => simp at h
  | cons x rest ih =>
      by_cases hq : q x
      · rcases hrest : rest.filter q with _ | ⟨y, ys⟩
        · have hcx : c = x := by
            rw [List.filter_cons_of_pos hq, hrest] at h
            simpa using h.symm
          refine ⟨[], rest, by simp [hcx], fun z hz => ?_, hcx ▸ hq⟩
          by_contra hqz
          have : z ∈ rest.filter q := List.mem_filter.mpr ⟨hz, by simpa using hqz⟩
          rw [hrest] at this
          simp at this
        · have hlast : (rest.filter q).getLast? = some c := by
            rw [List.filter_cons_of_pos hq, hrest] at h
            rw [hrest]
            simpa using h
          rcases ih hlast with ⟨l₁, l₂, heq, hprop, hqc⟩
          exact ⟨x :: l₁, l₂, by simp [heq], hprop, hqc⟩
      · rw [List.filter_cons_of_neg hq] at h
        rcases ih h with ⟨l₁, l₂, heq, hprop, hqc⟩
        exact ⟨x :: l₁, l₂, by simp [heq], hprop, hqc⟩

/-- The `blobsToFetch` map holds, at each sha, the last fetch candidate
with that sha. -/
theorem fetchMap_get_last (sgcFiles : List (String × String)) (shas : List String)
    (F : List TreeItem) (X : String) (glast : TreeItem)
    (h : ((F.filter (fetchCond sgcFiles shas)).filter
        (fun g => g.sha = X)).getLast? = some glast) :
    mapGet (fetchMap sgcFiles shas F) X = some glast := by
  rcases filter_getLast_decomp _ _ _ h with ⟨l₁, l₂, heq, hprop, hqc⟩
  have hX : glast.sha = X := by simpa using hqc
  have : mapGet (upsertFold (fun g => g.sha) (fun g => g)
      (l₁ ++ glast :: l₂) []) glast.sha = some glast := by
    apply mapGet_upsertFold_last
    intro c' hc' hk
    have : (decide (c'.sha = X)) = false := hprop c' hc'
    simp at this
    exact this (hk.trans hX)
  rw [fetchMap, heq, ← hX]
  exact this

/-- Every `blobsToFetch` entry is keyed by its file's sha, and that sha
is absent from the target's blobs. -/
theorem fetchMap_entry_facts (sgcFiles : List (String × String)) (shas : List String)
    (F : List TreeItem) (e : String × TreeItem) (h : e ∈ fetchMap sgcFiles shas F) :
    e.snd.sha = e.fst ∧ e.fst ∉ shas ∧ e.snd ∈ F ∧
      upToDate sgcFiles e.snd = false := by
  rcases fetchMap_mem _ _ _ _ h with ⟨c, hc, hec⟩
  have h1 := List.mem_filter.mp hc
  have h2 := (fetchCond_iff _ _ c).mp h1.2
  subst hec
  exact ⟨rfl, h2.2, h1.1, h2.1⟩

theorem reusePuts_paths (sgcFiles : List (String × String)) (shas : List String)
    (F : List TreeItem) :
    (reusePuts sgcFiles shas F).map TreeOp.path
      = (F.filter (reuseCond sgcFiles shas)).map (fun f => f.path) := by
  simp [reusePuts, List.map_map, Function.comp, TreeOp.path]

theorem fetchPuts_paths (bm : List (String × TreeItem)) :
    (fetchPuts bm).map TreeOp.path = bm.map (fun e => e.snd.path) := by
  simp [fetchPuts, List.map_map, Function.comp, TreeOp.path]

theorem deletionPass_paths (inclJson : Bool) (sgcFiles : List (String × String))
    (parentFilePaths : List String) :
    (deletionPass inclJson sgcFiles parentFilePaths).map TreeOp.path
      = (sgcFiles.filter (fun e =>
          isInShopifyFolder e.fst &&
          !(shouldExcludeJson inclJson e.fst) &&
          !(parentFilePaths.contains e.fst))).map Prod.fst := by
  simp [deletionPass, List.map_map, Function.comp, TreeOp.path]

/-- The produced plan never holds two operations for the same path
(unique source paths assumed, as in any git tree listing). -/
theorem syncCore_nodup_paths (F target : List TreeItem) (inclJson : Bool)
    (hF : (F.map (fun f => f.path)).Nodup) :
    (((syncCore F target inclJson).plan).map TreeOp.path).Nodup := by
  rw [syncCore_eq]
  simp only
  apply cleanupFold_nodupPaths
  rw [List.map_append, List.map_append, reusePuts_paths, fetchPuts_paths, deletionPass_paths]
  set sgc := buildSgcFiles target with hsgc
  set shas := targetShas target with hshas
  have hA : ((F.filter (reuseCond sgc shas)).map (fun f => f.path)).Nodup :=
    hF.sublist ((List.filter_sublist F).map _)
  have hB : ((fetchMap sgc shas F).map (fun e => e.snd.path)).Nodup := by
    have hnd : (fetchMap sgc shas F).Nodup :=
      List.Nodup.of_map Prod.fst (fetchMap_nodupKeys sgc shas F)
    refine hnd.map_on ?_
    intro e1 he1 e2 he2 hp
    rcases fetchMap_entry_facts sgc shas F e1 he1 with ⟨k1, _, m1, _⟩
    rcases fetchMap_entry_facts sgc shas F e2 he2 with ⟨k2, _, m2, _⟩
    have hsnd : e1.snd = e2.snd := List.inj_on_of_nodup_map hF m1 m2 hp
    have hfst : e1.fst = e2.fst := by rw [← k1, ← k2, hsnd]
    exact Prod.ext hfst hsnd
  have hC : ((sgc.filter (fun e =>
      isInShopifyFolder e.fst &&
      !(shouldExcludeJson inclJson e.fst) &&
      !((F.map (fun f => f.path)).contains e.fst))).map Prod.fst).Nodup :=
    (buildSgcFiles_nodupKeys target).sublist ((List.filter_sublist sgc).map _)
  have hAB : ∀ x ∈ (F.filter (reuseCond sgc shas)).map (fun f => f.path),
      x ∉ (fetchMap sgc shas F).map (fun e => e.snd.path) := by
    intro x hx hx'
    rcases List.mem_map.mp hx with ⟨f, hf, hfx⟩
    rcases List.mem_map.mp hx' with ⟨e, he, hex⟩
    rcases fetchMap_entry_facts sgc shas F e he with ⟨hk, habs, hmF, _⟩
    have hff := List.mem_filter.mp hf
    have hr := (reuseCond_iff sgc shas f).mp hff.2
    have hfe : f = e.snd := List.inj_on_of_nodup_map hF hff.1 hmF (by rw [hfx, hex])
    rw [hfe] at hr
    rw [hk] at hr
    exact habs hr.2
  have hBC : ∀ x, x ∈ F.map (fun f => f.path) →
      x ∉ (sgc.filter (fun e =>
        isInShopifyFolder e.fst &&
        !(shouldExcludeJson inclJson e.fst) &&
        !((F.map (fun f => f.path)).contains e.fst))).map Prod.fst := by
    intro x hxF hx
    rcases List.mem_map.mp hx with ⟨e, he, hex⟩
    have hcond := (List.mem_filter.mp he).2
    simp only [Bool.and_eq_true, Bool.not_eq_true'] at hcond
    have h3 : e.fst ∉ F.map (fun f => f.path) := by simpa using hcond.2
    rw [hex] at h3
    exact h3 hxF
  rw [List.nodup_append, List.nodup_append]
  refine ⟨⟨hA, hB, fun x hx => hAB x hx⟩, hC, ?_⟩
  intro x hx
  rcases List.mem_append.mp hx with hx' | hx'
  · apply hBC
    rcases List.mem_map.mp hx' with ⟨f, hf, hfx⟩
    exact List.mem_map.mpr ⟨f, (List.mem_filter.mp hf).1, hfx⟩
  · apply hBC
    rcases List.mem_map.mp hx' with ⟨e, he, hex⟩
    rcases fetchMap_entry_facts sgc shas F e he with ⟨_, _, hmF, _⟩
    exact List.mem_map.mpr ⟨e.snd, hmF, hex⟩

theorem find?_filter_keep {β : Type} (pred keep : β → Bool) (l : List β)
    (h : ∀ x, pred x = true → keep x = true) :
    (l.filter keep).find? pred = l.find? pred := by
  induction l with
  | nil => rfl
  | cons x rest ih =>
      by_cases hk : keep x
      · by_cases hp : pred x
        · simp [List.filter_cons_of_pos hk, List.find?, hp]
        · simp only [List.filter_cons_of_pos hk]
          simpa [List.find?, hp] using ih
      · have hp : pred x = false := by
          by_contra hc
          exact hk (h x (by simpa using hc))
        simp only [List.filter_cons_of_neg hk]
        simpa [List.find?, hp] using ih

theorem blobAt_filter_ne (t : List TreeItem) (p q : String) (hpq : p ≠ q) :
    blobAt (t.filter (fun it => !(it.path = q))) p = blobAt t p := by
  apply find?_filter_keep
  intro it hit
  simp only [Bool.and_eq_true, decide_eq_true_eq] at hit
  simp [hit.2, fun hh : p = q => hpq hh]

theorem blobAt_filter_self (t : List TreeItem) (p : String) :
    blobAt (t.filter (fun it => !(it.path = p))) p = none := by
  rw [blobAt, List.find?_eq_none]
  intro it hit
  have := (List.mem_filter.mp hit).2
  simp only [Bool.not_eq_true', decide_eq_false_iff_not] at this
  simp [this]

theorem blobAt_append_singleton_self (t : List TreeItem) (p m s : String) :
    blobAt ((t.filter (fun it => !(it.path = p))) ++ [⟨p, m, s, true⟩]) p
      = some ⟨p, m, s, true⟩ := by
  rw [blobAt, List.find?_append]
  have h1 : blobAt (t.filter (fun it => !(it.path = p))) p = none := blobAt_filter_self t p
  rw [blobAt] at h1
  rw [h1]
  simp [List.find?, Option.none_or]

theorem blobAt_append_singleton_ne (t : List TreeItem) (p q m s : String) (hpq : p ≠ q) :
    blobAt ((t.filter (fun it => !(it.path = q))) ++ [⟨q, m, s, true⟩]) p = blobAt t p := by
  have hne : ¬(q = p) := fun hh => hpq hh.symm
  rw [blobAt, List.find?_append]
  have h2 : ([(⟨q, m, s, true⟩ : TreeItem)].find?
      (fun it => it.isBlob && it.path = p)) = none := by
    simp [List.find?, hne]
  have h1 := blobAt_filter_ne t p q hpq
  rw [blobAt] at h1
  rw [h2, h1, Option.or_none]

theorem applyPlan_cons_put (t : List TreeItem) (rest : List TreeOp) (q m s : String) :
    applyPlan t (TreeOp.put q m s :: rest)
      = applyPlan ((t.filter (fun it => !(it.path = q))) ++ [⟨q, m, s, true⟩]) rest := rfl

theorem applyPlan_cons_del (t : List TreeItem) (rest : List TreeOp) (q : String) :
    applyPlan t (TreeOp.del q :: rest)
      = applyPlan (t.filter (fun it => !(it.path = q))) rest := rfl

/-- Paths of a plan do not gain duplicates under `applyPlan`. -/
theorem nodupPaths_applyPlan (t : List TreeItem) (plan : List TreeOp)
    (h : (t.map (fun it => it.path)).Nodup) :
    ((applyPlan t plan).map (fun it => it.path)).Nodup := by
  induction plan generalizing t with
  | nil => exact h
  | cons op rest ih =>
      cases op with
      | put q m s =>
          rw [applyPlan_cons_put]
          apply ih
          rw [List.map_append]
          have hsub : ((t.filter (fun it => !(it.path = q))).map (fun it => it.path)).Nodup :=
            h.sublist ((List.filter_sublist t).map _)
          have hq : q ∉ (t.filter (fun it => !(it.path = q))).map (fun it => it.path) := by
            intro hx
            rcases List.mem_map.mp hx with ⟨it, hit, hp⟩
            have := (List.mem_filter.mp hit).2
            simp only [Bool.not_eq_true', decide_eq_false_iff_not] at this
            exact this hp
          simp [List.nodup_append, hsub, hq]
      | del q =>
          rw [applyPlan_cons_del]
          exact ih _ (h.sublist ((List.filter_sublist t).map _))

/-- A path untouched by the plan keeps its blob. -/
theorem blobAt_applyPlan_none (t : List TreeItem) (plan : List TreeOp) (p : String)
    (h : ∀ op ∈ plan, TreeOp.path op ≠ p) :
    blobAt (applyPlan t plan) p = blobAt t p := by
  induction plan generalizing t with
  | nil => rfl
  | cons op rest ih =>
      have hrest : ∀ op' ∈ rest, TreeOp.path op' ≠ p := fun op' hop' => h op' (by simp [hop'])
      cases op with
      | put q m s =>
          have hq : p ≠ q := fun hh =>
            (h (TreeOp.put q m s) (by simp)) (by simpa [TreeOp.path] using hh.symm)
          rw [applyPlan_cons_put, ih _ hrest]
          exact blobAt_append_singleton_ne t p q m s hq
      | del q =>
          have hq : p ≠ q := fun hh =>
            (h (TreeOp.del q) (by simp)) (by simpa [TreeOp.path] using hh.symm)
          rw [applyPlan_cons_del, ih _ hrest]
          exact blobAt_filter_ne t p q hq

/-- A path `put` by a plan with unique paths ends up with exactly the put
blob. -/
theorem blobAt_applyPlan_put (t : List TreeItem) (plan : List TreeOp) (p m s : String)
    (hnd : (plan.map TreeOp.path).Nodup) (h : TreeOp.put p m s ∈ plan) :
    blobAt (applyPlan t plan) p = some ⟨p, m, s, true⟩ := by
  induction plan generalizing t with
  | nil => simp at h
  | cons op rest ih =>
      rw [List.map_cons, List.nodup_cons] at hnd
      rcases List.mem_cons.mp h with h' | h'
      · subst h'
        have hnop : ∀ op' ∈ rest, TreeOp.path op' ≠ p := by
          intro op' hop' hpath
          exact hnd.1 (by simpa [TreeOp.path, ← hpath] using List.mem_map.mpr ⟨op', hop', rfl⟩)
        rw [applyPlan_cons_put, blobAt_applyPlan_none _ rest p hnop]
        exact blobAt_append_singleton_self t p m s
      · cases op with
        | put q m' s' => rw [applyPlan_cons_put]; exact ih _ hnd.2 h'
        | del q => rw [applyPlan_cons_del]; exact ih _ hnd.2 h'

/-- A path deleted by a plan with unique paths has no blob afterwards. -/
theorem blobAt_applyPlan_del (t : List TreeItem) (plan : List TreeOp) (p : String)
    (hnd : (plan.map TreeOp.path).Nodup) (h : TreeOp.del p ∈ plan) :
    blobAt (applyPlan t plan) p = none := by
  induction plan generalizing t with
  | nil => simp at h
  | cons op rest ih =>
      rw [List.map_cons, List.nodup_cons] at hnd
      rcases List.mem_cons.mp h with h' | h'
      · subst h'
        have hnop : ∀ op' ∈ rest, TreeOp.path op' ≠ p := by
          intro op' hop' hpath
          exact hnd.1 (by simpa [TreeOp.path, ← hpath] using List.mem_map.mpr ⟨op', hop', rfl⟩)
        rw [applyPlan_cons_del, blobAt_applyPlan_none _ rest p hnop]
        exact blobAt_filter_self t p
      · cases op with
        | put q m' s' => rw [applyPlan_cons_put]; exact ih _ hnd.2 h'
        | del q => rw [applyPlan_cons_del]; exact ih _ hnd.2 h'

/-- With unique paths, a blob of the listing is found at its path. -/
theorem blobAt_of_mem_nodup (t : List TreeItem) (it : TreeItem)
    (h : (t.map (fun i => i.path)).Nodup) (hm : it ∈ t) (hb : it.isBlob = true) :
    blobAt t it.path = some it := by
  induction t with
  | nil => simp at hm
  | cons x rest ih =>
      rw [List.map_cons, List.nodup_cons] at h
      rcases List.mem_cons.mp hm with h' | h'
      · subst h'
        simp [blobAt, List.find?, hb]
      · have hx : x.path ≠ it.path := by
          intro hh
          exact h.1 (hh ▸ List.mem_map.mpr ⟨it, h', rfl⟩)
        have hpred : ¬((x.isBlob && decide (x.path = it.path)) = true) := by simp [hx]
        rw [blobAt, @List.find?_cons_of_neg _
          (fun i => i.isBlob && decide (i.path = it.path)) x rest hpred]
        exact ih h.2 h'

/-- With unique target paths, the `sgcFiles` entries are exactly the
blobs of the listing. -/
theorem mem_buildSgcFiles_iff (t : List TreeItem) (e : String × String)
    (h : (t.map (fun it => it.path)).Nodup) :
    e ∈ buildSgcFiles t ↔ ∃ it ∈ t, it.isBlob = true ∧ e = (it.path, it.sha) := by
  rw [buildSgcFiles_eq_of_nodup t h]
  constructor
  · intro hx
    rcases List.mem_map.mp hx with ⟨it, hit, he⟩
    exact ⟨it, (List.mem_filter.mp hit).1, by simpa using (List.mem_filter.mp hit).2, he.symm⟩
  · rintro ⟨it, hit, hb, he⟩
    exact List.mem_map.mpr ⟨it, List.mem_filter.mpr ⟨hit, by simpa using hb⟩, he.symm⟩

theorem updateSGC_eq_ite (s t : List TreeItem) (j : Bool) (par : Parent) :
    updateSGCOnParentPush s t j par =
      if (s.filter (passesFilter (shouldIncludeJson j par))).isEmpty then ⟨[], [], false⟩
      else syncCore (s.filter (passesFilter (shouldIncludeJson j par))) t
        (shouldIncludeJson j par) := rfl

theorem passesFilter_parts (inclJson : Bool) (f : TreeItem) (h : passesFilter inclJson f = true) :
    f.isBlob = true ∧ isInShopifyFolder f.path = true := by
  rw [passesFilter] at h
  simp only [Bool.and_eq_true] at h
  exact h.1

/-- Running the planner a second time on an unchanged source against the
target produced by applying the first run's plan yields no operations and
no tree/commit/ref-update call — assuming unique source and target paths
and that no two distinct filtered source paths share a sha that is absent
from the target's blobs. -/
theorem updateSGC_second_run (s t : List TreeItem) (j : Bool) (par : Parent)
    (Hs : (s.map (fun it => it.path)).Nodup)
    (Ht : (t.map (fun it => it.path)).Nodup)
    (HU : ∀ f ∈ s.filter (passesFilter (shouldIncludeJson j par)),
      ∀ g ∈ s.filter (passesFilter (shouldIncludeJson j par)),
      f.sha = g.sha → f.sha ∉ targetShas t → f.path = g.path) :
    updateSGCOnParentPush s
      (applyPlan t (updateSGCOnParentPush s t j par).plan) j par
      = ⟨[], [], false⟩ := by
  by_cases hemp : (s.filter (passesFilter (shouldIncludeJson j par))).isEmpty
  · have h1 : updateSGCOnParentPush s t j par = ⟨[], [], false⟩ := by
      rw [updateSGC_eq_ite, if_pos hemp]
    rw [h1]
    show updateSGCOnParentPush s (applyPlan t []) j par = _
    rw [show applyPlan t [] = t from rfl, updateSGC_eq_ite, if_pos hemp]
  · set inclJson := shouldIncludeJson j par with hj
    set F := s.filter (passesFilter inclJson) with hFdef
    have hrun1 : updateSGCOnParentPush s t j par = syncCore F t inclJson := by
      rw [updateSGC_eq_ite, if_neg hemp]
    set plan1 := (syncCore F t inclJson).plan with hplan1
    set t' := applyPlan t plan1 with ht'
    have hFnd : (F.map (fun f => f.path)).Nodup :=
      Hs.sublist ((List.filter_sublist s).map _)
    have hFsh : ∀ f ∈ F, isInShopifyFolder f.path = true := by
      intro f hf
      exact (passesFilter_parts inclJson f (List.mem_filter.mp hf).2).2
    have hplannd : (plan1.map TreeOp.path).Nodup := syncCore_nodup_paths F t inclJson hFnd
    have Ht' : (t'.map (fun it => it.path)).Nodup := nodupPaths_applyPlan t plan1 Ht
    -- Step 1: every filtered source file is current in the new target.
    have step1 : ∀ f ∈ F, upToDate (buildSgcFiles t') f = true := by
      intro f hf
      rw [upToDate, decide_eq_true_eq, mapGet_buildSgcFiles t' f.path Ht']
      by_cases hcur : upToDate (buildSgcFiles t) f = true
      · have hno : ∀ op ∈ plan1, TreeOp.path op ≠ f.path := by
          apply syncCore_no_op_at F t inclJson f.path hFsh ?_ (List.mem_map.mpr ⟨f, hf, rfl⟩)
          intro g hg hgp
          have hgf : g = f := List.inj_on_of_nodup_map hFnd hg hf hgp
          rw [hgf]
          exact hcur
        rw [blobAt_applyPlan_none t plan1 f.path hno]
        rw [← mapGet_buildSgcFiles t f.path Ht]
        rw [upToDate, decide_eq_true_eq] at hcur
        exact hcur
      · have hstale : upToDate (buildSgcFiles t) f = false := by
          simpa using hcur
        have hput : TreeOp.put f.path f.mode f.sha ∈ plan1 := by
          apply syncCore_put_complete F t inclJson f hf hstale
          intro g hg _ habs hsha
          have hp : g.path = f.path := HU g hg f hf hsha habs
          exact List.inj_on_of_nodup_map hFnd hg hf hp
        rw [blobAt_applyPlan_put t plan1 f.path f.mode f.sha hplannd hput]
        rfl
    -- Dichotomy facts for each new target file.
    have hdi : ∀ e ∈ buildSgcFiles t',
        e.fst ∈ F.map (fun f => f.path) ∨
          ((∃ sh, (e.fst, sh) ∈ buildSgcFiles t) ∧
            ∀ op ∈ plan1, TreeOp.path op ≠ e.fst) := by
      intro e he
      rcases (mem_buildSgcFiles_iff t' e Ht').mp he with ⟨it, hit, hb, hee⟩
      have hblob : blobAt t' e.fst = some it := by
        have := blobAt_of_mem_nodup t' it Ht' hit hb
        rw [hee]
        exact this
      by_cases hop : ∀ op ∈ plan1, TreeOp.path op ≠ e.fst
      · right
        have hbt : blobAt t e.fst = some it := by
          rw [← blobAt_applyPlan_none t plan1 e.fst hop]
          exact hblob
        have hitt : it ∈ t := List.mem_of_find?_eq_some hbt
        have hpred := List.find?_some hbt
        simp only [Bool.and_eq_true, decide_eq_true_eq] at hpred
        refine ⟨⟨it.sha, ?_⟩, hop⟩
        rw [← hpred.2]
        exact (mem_buildSgcFiles_iff t (it.path, it.sha) Ht).mpr ⟨it, hitt, hpred.1, rfl⟩
      · left
        push_neg at hop
        rcases hop with ⟨op, hopmem, hoppath⟩
        cases op with
        | put q m sh =>
            rcases syncCore_put_sound F t inclJson q m sh hopmem with ⟨f2, hf2, hf2p, _⟩
            have hq : q = e.fst := by simpa [TreeOp.path] using hoppath
            exact List.mem_map.mpr ⟨f2, hf2, by rw [hf2p, hq]⟩
        | del q =>
            have hq : q = e.fst := by simpa [TreeOp.path] using hoppath
            have : blobAt t' e.fst = none := by
              rw [← hq]
              exact blobAt_applyPlan_del t plan1 q hplannd hopmem
            rw [this] at hblob
            cases hblob
    -- Step 2: every new target file is inside the Shopify folders.
    have step2 : ∀ e ∈ buildSgcFiles t', isInShopifyFolder e.fst = true := by
      intro e he
      rcases hdi e he with h' | h'
      · rcases List.mem_map.mp h' with ⟨f, hf, hfp⟩
        rw [← hfp]
        exact hFsh f hf
      · rcases h' with ⟨⟨sh, hmem⟩, hop⟩
        by_contra hout
        have hout' : isInShopifyFolder e.fst = false := by simpa using hout
        have hdel : TreeOp.del e.fst ∈ plan1 :=
          syncCore_cleanup_del F t inclJson e.fst sh hFsh hmem hout'
        exact hop _ hdel rfl
    -- Step 3: the second deletion pass is empty.
    have step3 : deletionPass inclJson (buildSgcFiles t') (F.map (fun f => f.path)) = [] := by
      rw [deletionPass]
      have hfil : (buildSgcFiles t').filter (fun e =>
          isInShopifyFolder e.fst &&
          !(shouldExcludeJson inclJson e.fst) &&
          !((F.map (fun f => f.path)).contains e.fst)) = [] := by
        rw [List.filter_eq_nil_iff]
        intro e he hcond
        simp only [Bool.and_eq_true, Bool.not_eq_true'] at hcond
        have hnpF : e.fst ∉ F.map (fun f => f.path) := by simpa using hcond.2
        have hinS : isInShopifyFolder e.fst = true := hcond.1.1
        have hexcl : shouldExcludeJson inclJson e.fst = false := hcond.1.2
        rcases hdi e he with h' | h'
        · exact hnpF h'
        · rcases h' with ⟨⟨sh, hmem⟩, hop⟩
          have hdel : TreeOp.del e.fst ∈ plan1 :=
            syncCore_del_complete F t inclJson e.fst sh hmem hinS hexcl hnpF
          exact hop _ hdel rfl
      rw [hfil]
      rfl
    -- Step 4: the second diff pass produces nothing.
    have hreuse : reusePuts (buildSgcFiles t') (targetShas t') F = [] := by
      rw [reusePuts]
      have : F.filter (reuseCond (buildSgcFiles t') (targetShas t')) = [] := by
        rw [List.filter_eq_nil_iff]
        intro f hf hcond
        rw [reuseCond, step1 f hf] at hcond
        simp at hcond
      rw [this]
      rfl
    have hfetch : fetchMap (buildSgcFiles t') (targetShas t') F = [] := by
      rw [fetchMap]
      have : F.filter (fetchCond (buildSgcFiles t') (targetShas t')) = [] := by
        rw [List.filter_eq_nil_iff]
        intro f hf hcond
        rw [fetchCond, step1 f hf] at hcond
        simp at hcond
      rw [this]
      rfl
    -- Assemble the second run.
    have hrun1plan : (updateSGCOnParentPush s t j par).plan = plan1 := by rw [hrun1]
    rw [hrun1plan]
    rw [updateSGC_eq_ite, if_neg hemp]
    rw [syncCore_eq, hreuse, hfetch, step3]
    have hclean : cleanupFold (buildSgcFiles t') ([] ++ fetchPuts [] ++ []) = [] := by
      have : ([] ++ fetchPuts [] ++ [] : List TreeOp) = [] := by simp [fetchPuts]
      rw [this]
      exact cleanupFold_id _ _ step2
    rw [hclean]
    rfl

theorem shouldIncludeJson_production (j : Bool) :
    shouldIncludeJson j Parent.production = j := by
  cases j <;> decide

theorem shouldIncludeJson_staging (j : Bool) :
    shouldIncludeJson j Parent.staging = true := by
  cases j <;> decide

theorem shouldIncludeJson_release (j : Bool) :
    shouldIncludeJson j Parent.release = true := by
  cases j <;> decide

theorem excl_not_passes (inclJson : Bool) (f : TreeItem)
    (hexcl : shouldExcludeJson inclJson f.path = true) : passesFilter inclJson f = false := by
  rw [shouldExcludeJson] at hexcl
  simp only [Bool.and_eq_true, Bool.not_eq_true', decide_eq_false_iff_not] at hexcl
  rw [passesFilter]
  simp [hexcl.1.1, hexcl.1.2, hexcl.2]

theorem passesFilter_json (f : TreeItem) (h : passesFilter false f = true)
    (hj : strEndsWith f.path ".json" = true) : f.path = "config/settings_schema.json" := by
  rw [passesFilter] at h
  simp only [Bool.and_eq_true, Bool.or_eq_true, Bool.not_eq_true',
    decide_eq_true_eq] at h
  rcases h.2 with (h' | h') | h'
  · cases h'
  · rw [hj] at h'; cases h'
  · exact h'

/-- C10: for every call with `parent` equal to `staging` or `release`,
JSON files are included regardless of `includeJsonFiles` — the whole
sync outcome coincides with the `includeJsonFiles = true` run — while
for `production` the filter uses exactly `includeJsonFiles`. -/
theorem C10_json_always_included (s t : List TreeItem) (j : Bool) :
    updateSGCOnParentPush s t j Parent.staging
        = updateSGCOnParentPush s t true Parent.staging ∧
    updateSGCOnParentPush s t j Parent.release
        = updateSGCOnParentPush s t true Parent.release ∧
    shouldIncludeJson j Parent.production = j := by
  refine ⟨?_, ?_, shouldIncludeJson_production j⟩
  · rw [updateSGC_eq_ite, updateSGC_eq_ite,
      shouldIncludeJson_staging j, shouldIncludeJson_staging true]
  · rw [updateSGC_eq_ite, updateSGC_eq_ite,
      shouldIncludeJson_release j, shouldIncludeJson_release true]

/-- C8: the rebase-by-tree-copy operation is a no-op (no commit
creation, no ref update) when the two tips are equal; otherwise it
creates exactly one commit whose tree is the source tip's tree and whose
sole parent is the source tip, and force-updates the `release` ref. -/
theorem C8_rebase (stagingSha releaseSha stagingTree : String) :
    (releaseSha = stagingSha →
      updateReleaseOnStagingPush stagingSha releaseSha stagingTree = []) ∧
    (releaseSha ≠ stagingSha →
      updateReleaseOnStagingPush stagingSha releaseSha stagingTree
        = [RebaseOp.createCommit stagingTree [stagingSha],
           RebaseOp.updateRef "release" true]) := by
  constructor
  · intro h
    rw [updateReleaseOnStagingPush, if_pos h]
  · intro h
    rw [updateReleaseOnStagingPush, if_neg h]

theorem C8_rebase_witness :
    updateReleaseOnStagingPush "abc" "abc" "tr" = [] ∧
    updateReleaseOnStagingPush "abc" "def" "tr"
      = [RebaseOp.createCommit "tr" ["abc"], RebaseOp.updateRef "release" true] :=
  ⟨(C8_rebase "abc" "abc" "tr").1 rfl, (C8_rebase "abc" "def" "tr").2 (by decide)⟩

/-- C7 counterexample: when the fallback merge of a conflict error
fails, the error is *not* surfaced to the caller — the function returns
normally (`rethrown = false`). -/
theorem C7_counterexample :
    isConflictError ⟨422, false⟩ = true ∧
    (catchBlock ⟨422, false⟩ false).mergeCalls = 1 ∧
    (catchBlock ⟨422, false⟩ false).rethrown = false := by decide

/-- C7 (amended): a conflict failure triggers exactly one fallback merge
(and a non-conflict failure none); a failure of that merge is only
logged — the function returns normally in every case instead of
surfacing the error. -/
theorem C7_amended (e : SyncError) (mergeSucceeds : Bool) :
    (isConflictError e = true → (catchBlock e mergeSucceeds).mergeCalls = 1) ∧
    (isConflictError e = false → (catchBlock e mergeSucceeds).mergeCalls = 0) ∧
    (catchBlock e mergeSucceeds).rethrown = false := by
  refine ⟨fun h => ?_, fun h => ?_, ?_⟩
  · rw [catchBlock, if_pos h]
  · rw [catchBlock, if_neg (by simp [h])]
  · by_cases h : isConflictError e = true
    · rw [catchBlock, if_pos h]
    · rw [catchBlock, if_neg h]

theorem C7_amended_witness :
    isConflictError ⟨422, false⟩ = true ∧
    (catchBlock ⟨422, false⟩ false).mergeCalls = 1 ∧
    (catchBlock ⟨422, false⟩ false).rethrown = false :=
  ⟨by decide, (C7_amended ⟨422, false⟩ false).1 (by decide),
    (C7_amended ⟨422, false⟩ false).2.2⟩

/-- C2 counterexample: with an empty filtered source the function
returns before the cleanup pass, so a target file outside the allowed
prefixes receives no delete — the plan is empty and nothing is issued. -/
theorem C2_counterexample :
    ("extra/file.txt", "T") ∈ buildSgcFiles [⟨"extra/file.txt", "100644", "T", true⟩] ∧
    isInShopifyFolder "extra/file.txt" = false ∧
    updateSGCOnParentPush [] [⟨"extra/file.txt", "100644", "T", true⟩] false Parent.production
      = ⟨[], [], false⟩ := by decide

/-- C2 (amended): whenever the filtered source is non-empty, every
target file outside the allowed prefixes receives a delete, independent
of the JSON policy; when the filtered source is empty the function
returns early and the plan is empty (no cleanup happens). -/
theorem C2_amended (s t : List TreeItem) (j : Bool) (par : Parent) (p sh : String) :
    ((s.filter (passesFilter (shouldIncludeJson j par))).isEmpty = false →
      (p, sh) ∈ buildSgcFiles t → isInShopifyFolder p = false →
      TreeOp.del p ∈ (updateSGCOnParentPush s t j par).plan) ∧
    ((s.filter (passesFilter (shouldIncludeJson j par))).isEmpty = true →
      updateSGCOnParentPush s t j par = ⟨[], [], false⟩) := by
  constructor
  · intro hne hmem hout
    rw [updateSGC_eq_ite, if_neg (by simp [hne])]
    apply syncCore_cleanup_del _ t _ p sh ?_ hmem hout
    intro f hf
    exact (passesFilter_parts _ f (List.mem_filter.mp hf).2).2
  · intro he
    rw [updateSGC_eq_ite, if_pos he]

theorem C2_amended_witness :
    TreeOp.del "extra/file.txt" ∈ (updateSGCOnParentPush
      [⟨"assets/a.css", "100644", "id1", true⟩]
      [⟨"extra/file.txt", "100644", "T", true⟩] false Parent.production).plan ∧
    updateSGCOnParentPush [] [⟨"extra/file.txt", "100644", "T", true⟩] false Parent.production
      = ⟨[], [], false⟩ :=
  ⟨(C2_amended [⟨"assets/a.css", "100644", "id1", true⟩]
      [⟨"extra/file.txt", "100644", "T", true⟩] false Parent.production
      "extra/file.txt" "T").1 (by decide) (by decide) (by decide),
   (C2_amended [] [⟨"extra/file.txt", "100644", "T", true⟩] false Parent.production
      "extra/file.txt" "T").2 (by decide)⟩

/-- C4: deletes respect the JSON policy: an in-scope target path that
the active policy excludes receives no operation at all (it stays
stale), and every in-scope delete of the plan is for a path that passes
the policy and is absent from the filtered source. -/
theorem C4_policy_guard (s t : List TreeItem) (j : Bool) (par : Parent) (p : String) :
    (isInShopifyFolder p = true →
      shouldExcludeJson (shouldIncludeJson j par) p = true →
      ∀ op ∈ (updateSGCOnParentPush s t j par).plan, TreeOp.path op ≠ p) ∧
    (TreeOp.del p ∈ (updateSGCOnParentPush s t j par).plan →
      isInShopifyFolder p = true →
      shouldExcludeJson (shouldIncludeJson j par) p = false ∧
        p ∉ (s.filter (passesFilter (shouldIncludeJson j par))).map (fun f => f.path)) := by
  have hF : ∀ f ∈ s.filter (passesFilter (shouldIncludeJson j par)),
      isInShopifyFolder f.path = true := fun f hf =>
    (passesFilter_parts _ f (List.mem_filter.mp hf).2).2
  constructor
  · intro hin hexcl op hop hpath
    rw [updateSGC_eq_ite] at hop
    by_cases hemp : (s.filter (passesFilter (shouldIncludeJson j par))).isEmpty
    · rw [if_pos hemp] at hop; simp at hop
    · rw [if_neg hemp] at hop
      cases op with
      | put q m sh =>
          rcases syncCore_put_sound _ t _ q m sh hop with ⟨f, hf, hfp, _⟩
          have hq : q = p := by simpa [TreeOp.path] using hpath
          have hpf := (List.mem_filter.mp hf).2
          have hfalse : passesFilter (shouldIncludeJson j par) f = false :=
            excl_not_passes _ f (by rw [hfp, hq]; exact hexcl)
          rw [hfalse] at hpf
          cases hpf
      | del q =>
          have hq : q = p := by simpa [TreeOp.path] using hpath
          rcases syncCore_del_sound _ t _ q hF hop with ⟨_, _, hpol⟩
          rw [hq] at hpol
          rw [hpol hin] at hexcl
          cases hexcl
  · intro hdel hin
    rw [updateSGC_eq_ite] at hdel
    by_cases hemp : (s.filter (passesFilter (shouldIncludeJson j par))).isEmpty
    · rw [if_pos hemp] at hdel; simp at hdel
    · rw [if_neg hemp] at hdel
      rcases syncCore_del_sound _ t _ p hF hdel with ⟨_, hnp, hpol⟩
      exact ⟨hpol hin, hnp⟩

theorem C4_policy_guard_witness :
    (∀ op ∈ (updateSGCOnParentPush
        [⟨"assets/a.css", "100644", "id1", true⟩]
        [⟨"config/settings_data.json", "100644", "idold", true⟩,
         ⟨"assets/old.liquid", "100644", "id9", true⟩]
        false Parent.production).plan,
      TreeOp.path op ≠ "config/settings_data.json") ∧
    (shouldExcludeJson (shouldIncludeJson false Parent.production) "assets/old.liquid" = false ∧
      "assets/old.liquid" ∉ (([⟨"assets/a.css", "100644", "id1", true⟩] : List TreeItem).filter
        (passesFilter (shouldIncludeJson false Parent.production))).map (fun f => f.path)) :=
  ⟨(C4_policy_guard [⟨"assets/a.css", "100644", "id1", true⟩]
      [⟨"config/settings_data.json", "100644", "idold", true⟩,
       ⟨"assets/old.liquid", "100644", "id9", true⟩]
      false Parent.production "config/settings_data.json").1 (by decide) (by decide),
   (C4_policy_guard [⟨"assets/a.css", "100644", "id1", true⟩]
      [⟨"config/settings_data.json", "100644", "idold", true⟩,
       ⟨"assets/old.liquid", "100644", "id9", true⟩]
      false Parent.production "assets/old.liquid").2 (by decide) (by decide)⟩

/-- C5: a produced plan never contains two entries for the same path —
in particular never both a put and a delete for one path. -/
theorem C5_no_collision (s t : List TreeItem) (j : Bool) (par : Parent)
    (Hs : (s.map (fun it => it.path)).Nodup) :
    (((updateSGCOnParentPush s t j par).plan).map TreeOp.path).Nodup := by
  rw [updateSGC_eq_ite]
  by_cases hemp : (s.filter (passesFilter (shouldIncludeJson j par))).isEmpty
  · rw [if_pos hemp]; simp
  · rw [if_neg hemp]
    exact syncCore_nodup_paths _ t _ (Hs.sublist ((List.filter_sublist s).map _))

theorem C5_no_collision_witness :
    (([⟨"assets/a.css", "100644", "id1", true⟩,
       ⟨"config/settings_data.json", "100644", "id2", true⟩] : List TreeItem).map
      (fun it => it.path)).Nodup ∧
    (((updateSGCOnParentPush
        [⟨"assets/a.css", "100644", "id1", true⟩,
         ⟨"config/settings_data.json", "100644", "id2", true⟩]
        [⟨"extra/file.txt", "100644", "T", true⟩] false Parent.production).plan).map
      TreeOp.path).Nodup :=
  ⟨by decide,
   C5_no_collision [⟨"assets/a.css", "100644", "id1", true⟩,
      ⟨"config/settings_data.json", "100644", "id2", true⟩]
      [⟨"extra/file.txt", "100644", "T", true⟩] false Parent.production (by decide)⟩

/-- C6: blob reads and creations are issued exactly for the
`blobsToFetch` entries, whose shas are all absent from the target's
blobs (each entry keyed by its file's sha); a planned put whose sha is
already present anywhere in the target references that sha directly and
incurs no blob call. -/
theorem C6_object_reuse (s t : List TreeItem) (j : Bool) (par : Parent) :
    (∀ e ∈ (updateSGCOnParentPush s t j par).blobCalls,
      e.fst ∉ targetShas t ∧ e.snd.sha = e.fst) ∧
    (∀ p m sh, TreeOp.put p m sh ∈ (updateSGCOnParentPush s t j par).plan →
      sh ∈ targetShas t →
      ∀ e ∈ (updateSGCOnParentPush s t j par).blobCalls, e.fst ≠ sh) := by
  rw [updateSGC_eq_ite]
  by_cases hemp : (s.filter (passesFilter (shouldIncludeJson j par))).isEmpty
  · rw [if_pos hemp]
    exact ⟨by simp, by simp⟩
  · rw [if_neg hemp]
    have hbc : (syncCore (s.filter (passesFilter (shouldIncludeJson j par))) t
        (shouldIncludeJson j par)).blobCalls
        = fetchMap (buildSgcFiles t) (targetShas t)
            (s.filter (passesFilter (shouldIncludeJson j par))) := by
      rw [syncCore_eq]
    constructor
    · intro e he
      rw [hbc] at he
      rcases fetchMap_entry_facts _ _ _ e he with ⟨hk, habs, _, _⟩
      exact ⟨habs, hk⟩
    · intro p m sh _ hsha e he hfst
      rw [hbc] at he
      rcases fetchMap_entry_facts _ _ _ e he with ⟨_, habs, _, _⟩
      rw [hfst] at habs
      exact habs hsha

theorem C6_object_reuse_witness :
    ("Y" ∉ targetShas [⟨"assets/b.txt", "100644", "X", true⟩] ∧
      (⟨"assets/c.txt", "100644", "Y", true⟩ : TreeItem).sha = "Y") ∧
    (∀ e ∈ (updateSGCOnParentPush
        [⟨"assets/a.txt", "100644", "X", true⟩, ⟨"assets/c.txt", "100644", "Y", true⟩]
        [⟨"assets/b.txt", "100644", "X", true⟩] true Parent.staging).blobCalls,
      e.fst ≠ "X") :=
  ⟨(C6_object_reuse
      [⟨"assets/a.txt", "100644", "X", true⟩, ⟨"assets/c.txt", "100644", "Y", true⟩]
      [⟨"assets/b.txt", "100644", "X", true⟩] true Parent.staging).1
      ("Y", ⟨"assets/c.txt", "100644", "Y", true⟩) (by decide),
   (C6_object_reuse
      [⟨"assets/a.txt", "100644", "X", true⟩, ⟨"assets/c.txt", "100644", "Y", true⟩]
      [⟨"assets/b.txt", "100644", "X", true⟩] true Parent.staging).2
      "assets/a.txt" "100644" "X" (by decide) (by decide)⟩

/-- C3 counterexample: two filtered source files share a sha absent from
the (empty) target; the first run's sha-keyed fetch map drops one of
them, so a second run on the unchanged source still produces a put and
issues the tree/commit/ref-update calls — not a zero-op outcome. -/
theorem C3_counterexample :
    updateSGCOnParentPush
      [⟨"assets/a.txt", "100644", "X", true⟩, ⟨"assets/b.txt", "100644", "X", true⟩]
      (applyPlan []
        (updateSGCOnParentPush
          [⟨"assets/a.txt", "100644", "X", true⟩, ⟨"assets/b.txt", "100644", "X", true⟩]
          [] false Parent.production).plan)
      false Parent.production
      = ⟨[TreeOp.put "assets/a.txt" "100644" "X"], [], true⟩ := by decide

/-- C3 (amended): a filtered source path present in the target with the
same sha receives no operation; and a second run on an unchanged source
against the target produced by the first run is a zero-op outcome (empty
plan, no tree/commit/ref-update call), provided source and target paths
are unique and no two distinct filtered source paths share a sha absent
from the target's blobs. -/
theorem C3_amended (s t : List TreeItem) (j : Bool) (par : Parent)
    (Hs : (s.map (fun it => it.path)).Nodup)
    (Ht : (t.map (fun it => it.path)).Nodup)
    (HU : ∀ f ∈ s.filter (passesFilter (shouldIncludeJson j par)),
      ∀ g ∈ s.filter (passesFilter (shouldIncludeJson j par)),
      f.sha = g.sha → f.sha ∉ targetShas t → f.path = g.path) :
    (∀ f ∈ s, passesFilter (shouldIncludeJson j par) f = true →
      upToDate (buildSgcFiles t) f = true →
      ∀ op ∈ (updateSGCOnParentPush s t j par).plan, TreeOp.path op ≠ f.path) ∧
    updateSGCOnParentPush s (applyPlan t (updateSGCOnParentPush s t j par).plan) j par
      = ⟨[], [], false⟩ := by
  constructor
  · intro f hf hpass hcur op hop hpath
    rw [updateSGC_eq_ite] at hop
    by_cases hemp : (s.filter (passesFilter (shouldIncludeJson j par))).isEmpty
    · rw [if_pos hemp] at hop; simp at hop
    · rw [if_neg hemp] at hop
      have hFnd : ((s.filter (passesFilter (shouldIncludeJson j par))).map
          (fun f => f.path)).Nodup :=
        Hs.sublist ((List.filter_sublist s).map _)
      have hfF : f ∈ s.filter (passesFilter (shouldIncludeJson j par)) :=
        List.mem_filter.mpr ⟨hf, hpass⟩
      refine syncCore_no_op_at _ t _ f.path ?_ ?_
        (List.mem_map.mpr ⟨f, hfF, rfl⟩) op hop hpath
      · intro g hg
        exact (passesFilter_parts _ g (List.mem_filter.mp hg).2).2
      · intro g hg hgp
        have hgf : g = f := List.inj_on_of_nodup_map hFnd hg hfF hgp
        rw [hgf]
        exact hcur
  · exact updateSGC_second_run s t j par Hs Ht HU

theorem C3_amended_witness :
    (∀ op ∈ (updateSGCOnParentPush
        [⟨"assets/a.css", "100644", "id1", true⟩]
        [⟨"assets/a.css", "100644", "id1", true⟩, ⟨"extra/x.txt", "100644", "z", true⟩]
        false Parent.production).plan,
      TreeOp.path op ≠ "assets/a.css") ∧
    updateSGCOnParentPush [⟨"assets/a.css", "100644", "id1", true⟩]
      (applyPlan
        [⟨"assets/a.css", "100644", "id1", true⟩, ⟨"extra/x.txt", "100644", "z", true⟩]
        (updateSGCOnParentPush [⟨"assets/a.css", "100644", "id1", true⟩]
          [⟨"assets/a.css", "100644", "id1", true⟩, ⟨"extra/x.txt", "100644", "z", true⟩]
          false Parent.production).plan)
      false Parent.production = ⟨[], [], false⟩ :=
  ⟨(C3_amended [⟨"assets/a.css", "100644", "id1", true⟩]
      [⟨"assets/a.css", "100644", "id1", true⟩, ⟨"extra/x.txt", "100644", "z", true⟩]
      false Parent.production (by decide) (by decide) (by decide)).1
      ⟨"assets/a.css", "100644", "id1", true⟩ (by decide) (by decide) (by decide),
   (C3_amended [⟨"assets/a.css", "100644", "id1", true⟩]
      [⟨"assets/a.css", "100644", "id1", true⟩, ⟨"extra/x.txt", "100644", "z", true⟩]
      false Parent.production (by decide) (by decide) (by decide)).2⟩

/-- C1 counterexample: with exclusion active, settings_schema.json is in
the source and absent from the target, yet the plan contains no put for
it: a later source file with the same sha overwrote its entry in the
sha-keyed blobsToFetch map. -/
theorem C1_counterexample :
    (⟨"config/settings_schema.json", "100644", "X", true⟩ : TreeItem)
      ∈ ([⟨"config/settings_schema.json", "100644", "X", true⟩,
          ⟨"assets/a.txt", "100644", "X", true⟩] : List TreeItem) ∧
    mapGet (buildSgcFiles ([] : List TreeItem)) "config/settings_schema.json" = none ∧
    (∀ op ∈ (updateSGCOnParentPush
        [⟨"config/settings_schema.json", "100644", "X", true⟩,
         ⟨"assets/a.txt", "100644", "X", true⟩]
        [] false Parent.production).plan,
      TreeOp.path op ≠ "config/settings_schema.json") := by decide

/-- C1 (amended): with JSON exclusion active (production sync without
includeJsonFiles), no put ever targets a .json path other than
config/settings_schema.json; and config/settings_schema.json is put
whenever absent or stale in the target — unless its sha is absent from
the target and another filtered source file shares that sha (the
sha-keyed blobsToFetch map then drops it). -/
theorem C1_amended (s t : List TreeItem) :
    (∀ p m sh, TreeOp.put p m sh ∈ (updateSGCOnParentPush s t false Parent.production).plan →
      strEndsWith p ".json" = true → p = "config/settings_schema.json") ∧
    (∀ f ∈ s, (s.map (fun it => it.path)).Nodup → f.isBlob = true →
      f.path = "config/settings_schema.json" →
      upToDate (buildSgcFiles t) f = false →
      (∀ g ∈ s, passesFilter false g = true → g.sha = f.sha →
        g.sha ∉ targetShas t → g.path = f.path) →
      TreeOp.put f.path f.mode f.sha
        ∈ (updateSGCOnParentPush s t false Parent.production).plan) := by
  have hsj : shouldIncludeJson false Parent.production = false :=
    shouldIncludeJson_production false
  constructor
  · intro p m sh hput hjson
    rw [updateSGC_eq_ite, hsj] at hput
    by_cases hemp : (s.filter (passesFilter false)).isEmpty
    · rw [if_pos hemp] at hput; simp at hput
    · rw [if_neg hemp] at hput
      rcases syncCore_put_sound _ t _ p m sh hput with ⟨f, hf, hfp, _⟩
      have hres := passesFilter_json f (List.mem_filter.mp hf).2 (by rw [hfp]; exact hjson)
      rw [← hfp]
      exact hres
  · intro f hf Hs hb hp hstale hu
    have hpass : passesFilter false f = true := by
      rw [passesFilter, hp, hb]
      decide
    have hfF : f ∈ s.filter (passesFilter false) := List.mem_filter.mpr ⟨hf, hpass⟩
    have hemp : ¬((s.filter (passesFilter false)).isEmpty = true) := by
      intro he
      rw [List.isEmpty_iff] at he
      rw [he] at hfF
      simp at hfF
    rw [updateSGC_eq_ite, hsj, if_neg hemp]
    apply syncCore_put_complete _ t _ f hfF hstale
    intro g hg _ habs hsha
    have hgmem := List.mem_filter.mp hg
    have hpth : g.path = f.path := hu g hgmem.1 hgmem.2 hsha habs
    have hFnd : ((s.filter (passesFilter false)).map (fun x => x.path)).Nodup :=
      Hs.sublist ((List.filter_sublist s).map _)
    exact List.inj_on_of_nodup_map hFnd hg hfF hpth

theorem C1_amended_witness :
    (("config/settings_schema.json" : String) = "config/settings_schema.json") ∧
    TreeOp.put "config/settings_schema.json" "100644" "sch" ∈ (updateSGCOnParentPush
      [⟨"config/settings_data.json", "100644", "d", true⟩,
       ⟨"assets/a.css", "100644", "id1", true⟩,
       ⟨"config/settings_schema.json", "100644", "sch", true⟩]
      [] false Parent.production).plan :=
  ⟨(C1_amended
      [⟨"config/settings_data.json", "100644", "d", true⟩,
       ⟨"assets/a.css", "100644", "id1", true⟩,
       ⟨"config/settings_schema.json", "100644", "sch", true⟩] []).1
      "config/settings_schema.json" "100644" "sch" (by decide) (by decide),
   (C1_amended
      [⟨"config/settings_data.json", "100644", "d", true⟩,
       ⟨"assets/a.css", "100644", "id1", true⟩,
       ⟨"config/settings_schema.json", "100644", "sch", true⟩] []).2
      ⟨"config/settings_schema.json", "100644", "sch", true⟩
      (by decide) (by decide) (by decide) (by decide) (by decide) (by decide)⟩



/-- C9: when two or more distinct in-scope source paths share a sha that
is absent from the target, only the last such file in source order gets
a blob fetch entry and a put; every other such path receives no plan
entry at all. -/
theorem C9_sha_collision (s t : List TreeItem) (j : Bool) (par : Parent)
    (X : String) (glast : TreeItem)
    (Hs : (s.map (fun it => it.path)).Nodup)
    (_hcount : 2 ≤ ((fetchCands s t (shouldIncludeJson j par)).filter
        (fun g => g.sha = X)).length)
    (hlast : ((fetchCands s t (shouldIncludeJson j par)).filter
        (fun g => g.sha = X)).getLast? = some glast) :
    TreeOp.put glast.path glast.mode X ∈ (updateSGCOnParentPush s t j par).plan ∧
    mapGet ((updateSGCOnParentPush s t j par).blobCalls) X = some glast ∧
    (∀ h ∈ fetchCands s t (shouldIncludeJson j par), h.sha = X → h.path ≠ glast.path →
      ∀ op ∈ (updateSGCOnParentPush s t j par).plan, TreeOp.path op ≠ h.path) := by
  rw [fetchCands] at hlast
  have hdecomp := filter_getLast_decomp _ _ _ hlast
  rcases hdecomp with ⟨l₁, l₂, heq, _, hqc⟩
  have hXg : glast.sha = X := by simpa using hqc
  have hglast_mem : glast ∈ (s.filter (passesFilter (shouldIncludeJson j par))).filter
      (fetchCond (buildSgcFiles t) (targetShas t)) := by
    rw [heq]; simp
  have hglastF : glast ∈ s.filter (passesFilter (shouldIncludeJson j par)) :=
    (List.mem_filter.mp hglast_mem).1
  have hemp : ¬((s.filter (passesFilter (shouldIncludeJson j par))).isEmpty = true) := by
    intro he
    rw [List.isEmpty_iff] at he
    rw [he] at hglastF
    simp at hglastF
  have hFnd : ((s.filter (passesFilter (shouldIncludeJson j par))).map
      (fun f => f.path)).Nodup :=
    Hs.sublist ((List.filter_sublist s).map _)
  have hF : ∀ f ∈ s.filter (passesFilter (shouldIncludeJson j par)),
      isInShopifyFolder f.path = true := fun f hf =>
    (passesFilter_parts _ f (List.mem_filter.mp hf).2).2
  have hget : mapGet (fetchMap (buildSgcFiles t) (targetShas t)
      (s.filter (passesFilter (shouldIncludeJson j par)))) X = some glast :=
    fetchMap_get_last _ _ _ X glast hlast
  have hbc : (updateSGCOnParentPush s t j par).blobCalls
      = fetchMap (buildSgcFiles t) (targetShas t)
          (s.filter (passesFilter (shouldIncludeJson j par))) := by
    rw [updateSGC_eq_ite, if_neg hemp, syncCore_eq]
  have hput : TreeOp.put glast.path glast.mode X ∈ (updateSGCOnParentPush s t j par).plan := by
    rw [updateSGC_eq_ite, if_neg hemp, syncCore_eq]
    apply mem_cleanupFold
    refine List.mem_append.mpr (Or.inl (List.mem_append.mpr (Or.inr ?_)))
    exact (mem_fetchPuts_iff _ _).mpr ⟨(X, glast), mapGet_eq_some_mem _ _ _ hget, rfl⟩
  refine ⟨hput, by rw [hbc]; exact hget, ?_⟩
  intro h hmem hshaX hne op hop hpath
  rw [fetchCands] at hmem
  have hhF : h ∈ s.filter (passesFilter (shouldIncludeJson j par)) :=
    (List.mem_filter.mp hmem).1
  have hcond := (fetchCond_iff _ _ h).mp (List.mem_filter.mp hmem).2
  rw [updateSGC_eq_ite, if_neg hemp] at hop
  cases op with
  | put q m sh =>
      rcases syncCore_put_sound _ t _ q m sh hop with ⟨f2, hf2F, hf2p, _, _, _, hbranch⟩
      have hq : q = h.path := by simpa [TreeOp.path] using hpath
      have hf2h : f2 = h := List.inj_on_of_nodup_map hFnd hf2F hhF (by rw [hf2p, hq])
      rcases hbranch with hin | hin
      · rw [hf2h] at hin
        exact hcond.2 hin
      · rw [hf2h] at hin
        have hgeth : mapGet (fetchMap (buildSgcFiles t) (targetShas t)
            (s.filter (passesFilter (shouldIncludeJson j par)))) h.sha = some h :=
          mapGet_of_mem_nodupKeys _ _ _ (fetchMap_nodupKeys _ _ _) hin
        rw [hshaX, hget] at hgeth
        injection hgeth with hgl
        exact hne (by rw [hgl])
  | del q =>
      have hq : q = h.path := by simpa [TreeOp.path] using hpath
      rcases syncCore_del_sound _ t _ q hF hop with ⟨_, hnp, _⟩
      rw [hq] at hnp
      exact hnp (List.mem_map.mpr ⟨h, hhF, rfl⟩)

theorem C9_sha_collision_witness :
    TreeOp.put "assets/b.txt" "100644" "X" ∈ (updateSGCOnParentPush
      [⟨"assets/a.txt", "100644", "X", true⟩, ⟨"assets/b.txt", "100644", "X", true⟩]
      [] false Parent.production).plan ∧
    mapGet ((updateSGCOnParentPush
      [⟨"assets/a.txt", "100644", "X", true⟩, ⟨"assets/b.txt", "100644", "X", true⟩]
      [] false Parent.production).blobCalls) "X"
      = some ⟨"assets/b.txt", "100644", "X", true⟩ ∧
    (∀ op ∈ (updateSGCOnParentPush
        [⟨"assets/a.txt", "100644", "X", true⟩, ⟨"assets/b.txt", "100644", "X", true⟩]
        [] false Parent.production).plan,
      TreeOp.path op ≠ "assets/a.txt") :=
  ⟨(C9_sha_collision
      [⟨"assets/a.txt", "100644", "X", true⟩, ⟨"assets/b.txt", "100644", "X", true⟩]
      [] false Parent.production "X" ⟨"assets/b.txt", "100644", "X", true⟩
      (by decide) (by decide) (by decide)).1,
   (C9_sha_collision
      [⟨"assets/a.txt", "100644", "X", true⟩, ⟨"assets/b.txt", "100644", "X", true⟩]
      [] false Parent.production "X" ⟨"assets/b.txt", "100644", "X", true⟩
      (by decide) (by decide) (by decide)).2.1,
   (C9_sha_collision
      [⟨"assets/a.txt", "100644", "X", true⟩, ⟨"assets/b.txt", "100644", "X", true⟩]
      [] false Parent.production "X" ⟨"assets/b.txt", "100644", "X", true⟩
      (by decide) (by decide) (by decide)).2.2
      ⟨"assets/a.txt", "100644", "X", true⟩ (by decide) (by decide) (by decide)⟩

end TyzActions
